import Mathlib

/-!
Verification of the extension discovery / package-writing subsystem of
`src/main/Ui/Menu/menu.ts` (IPC handlers `createMultipleNewLocalFileExtensions`,
`writeNewExtensionToDisk`, `writeFiles`).

The handlers are shallowly embedded as pure Lean functions over explicit state
records.  External collaborators that are not part of the shown source
(`Const`, `Utils/Common.sanitizeFileName`, `Main/ExtensionManager`, the dialog
service, the settings store, the host JS runtime's `JSON.parse` /
`JSON.stringify`) are modelled from the spec; each such definition carries a
doc comment starting with "Modelled from the spec:".  Dialog results and
per-file write failures are supplied as explicit environment parameters;
the single-threaded cooperative concurrency of the source is modelled by
sequential left-to-right processing (the properties proved here are
schedule-independent).
-/

/-! ## Path and filename utilities (node `path` module and `Utils/Common`) -/

/-- Modelled from the spec: the fixed manifest filename constant
`MANIFEST_FILE_NAME` from `Const` (absent from src/); the source's own error
message at `menu.ts:140` fixes the value `manifest.json`. -/
def MANIFEST_FILE_NAME : String := "manifest.json"

/-- Modelled from the spec: the fixed extension allow-list
`FILE_EXTENSION_WHITE_LIST` from `Const` (absent from src/).  The spec fixes
only that it is a fixed allow-list of file extensions that must admit the
`.json` manifest; a representative list of plugin code/asset extensions. -/
def FILE_EXTENSION_WHITE_LIST : List String := [".json", ".js", ".html", ".css"]

/-- A character that is safe in a filesystem entry name. -/
def isSafeNameChar (c : Char) : Bool :=
  c.isAlphanum || c == '.' || c == '-' || c == '_'

/-- Modelled from the spec: `sanitizeFileName` from `Utils/Common` (absent from
src/) strips characters unsafe for a filesystem entry name; callers compare its
output to the input and reject on mismatch. -/
def sanitizeFileName (s : String) : String :=
  ⟨s.data.filter isSafeNameChar⟩

/-- JS `\w` character class (ASCII word character). -/
def isWordChar (c : Char) : Bool :=
  c.isAlphanum || c == '_'

/-- The test of the source regex `/^\w+(?:\.\w+)*\.\w+/` (`menu.ts:193`).
The regex is unanchored at the right, and `\w` and `.` are disjoint classes, so
a match of some prefix exists iff the name starts with a non-empty word-char
run followed by a dot followed by a word char. -/
def regexFileNameTest (s : String) : Bool :=
  let cs := s.data
  !(cs.takeWhile isWordChar).isEmpty &&
    (match cs.dropWhile isWordChar with
     | '.' :: c :: _ => isWordChar c
     | _ => false)

/-- node `path.extname` restricted to base names: the suffix from the last dot,
empty when there is no dot or the only dot is the leading character. -/
def pathExtname (s : String) : String :=
  let rev := s.data.reverse
  match rev.dropWhile (fun c => !(c == '.')) with
  | [] => ""
  | '.' :: [] => ""
  | '.' :: _ :: _ => ⟨'.' :: (rev.takeWhile (fun c => !(c == '.'))).reverse⟩
  | _ :: _ => ""

/-- node `path.basename`: the last path component, ignoring trailing slashes. -/
def pathBasename (s : String) : String :=
  let rev := s.data.reverse.dropWhile (· == '/')
  ⟨(rev.takeWhile (fun c => !(c == '/'))).reverse⟩

/-- node `path.parse(p).dir` / `path.dirname` for the shapes used here:
everything before the last separator of the (trailing-slash-stripped) path,
`""` for a bare name, `"/"` for entries directly under the root. -/
def pathDirname (s : String) : String :=
  let rev := s.data.reverse.dropWhile (· == '/')
  if s.data ≠ [] && rev.isEmpty then "/"
  else
    let rev2 := rev.dropWhile (fun c => !(c == '/'))
    let rev3 := rev2.dropWhile (· == '/')
    if rev3.isEmpty then (if rev2.isEmpty then "" else "/")
    else ⟨rev3.reverse⟩

/-- node `path.join` for a directory and an entry name. -/
def pathJoin (dir entry : String) : String :=
  dir ++ "/" ++ entry

/-- The hidden-entry test of the scanner, `name[0] !== "."` (menu.ts:126):
true when the first character exists and is a dot. -/
def startsWithDot (s : String) : Bool :=
  match s.data with
  | [] => false
  | c :: _ => c == '.'

/-- JS `name.includes(path.sep)` with the platform separator `/`
(menu.ts:304). -/
def containsSlash (s : String) : Bool :=
  s.data.any (fun c => c == '/')

/-- The per-file name validation of `writeNewExtensionToDisk`
(`menu.ts:191-195`): extension allow-list, shape regex, exact-match
sanitization. -/
def nameValid (name : String) : Bool :=
  FILE_EXTENSION_WHITE_LIST.contains (pathExtname name) &&
    regexFileNameTest name && name == sanitizeFileName name

/-! ## JSON values

Modelled from the spec: the host runtime's JSON for manifest files ("must be
syntactically valid JSON", parsed then inspected field-wise).  Numbers are kept
as their digit strings (the manifests used by this subsystem carry only
non-negative integer literals; fractions, exponents and signs are outside the
model).  Parsed objects hold their fields in first-occurrence order with
last-wins overwriting, matching JS property assignment. -/

inductive Json where
  | null
  | bool (b : Bool)
  | num (digits : List Char)
  | str (s : String)
  | arr (elems : List Json)
  | obj (fields : List (String × Json))
deriving Repr

/-- JS property read `j[k]`: `none` for `undefined`. -/
def jsGet : Json → String → Option Json
  | .obj fs, k => fs.lookup k
  | _, _ => none

/-- JS truthiness of a JSON value. -/
def jsTruthy : Json → Bool
  | .null => false
  | .bool b => b
  | .num ds => ds.any (fun c => !(c == '0'))
  | .str s => !(s == "")
  | .arr _ => true
  | .obj _ => true

/-- JS truthiness of a possibly-`undefined` value. -/
def jsTruthyOpt : Option Json → Bool
  | none => false
  | some v => jsTruthy v

/-- JS `typeof j === "object"` (true for objects, arrays and `null`). -/
def jsObjLike : Json → Bool
  | .obj _ => true
  | .arr _ => true
  | _ => false

/-- JS property assignment on an object's field list: overwrite in place when
the key is present, append otherwise. -/
def objAssign : List (String × Json) → String → Json → List (String × Json)
  | [], k, v => [(k, v)]
  | (k', v') :: fs, k, v =>
    if k' == k then (k', v) :: fs else (k', v') :: objAssign fs k v

/-- JS property assignment `j[k] = v`.  On a non-object it is invisible to
`JSON.stringify` (assigning a named property to a JS array does not change its
serialization), which is the only later observation the source makes. -/
def jsSet : Json → String → Json → Json
  | .obj fs, k, v => .obj (objAssign fs k v)
  | j, _, _ => j

/-! ## `JSON.stringify(·, undefined, 2)` -/

def lbrace : Char := '\x7b'

def rbrace : Char := '\x7d'

/-- Two-space indentation at nesting level `n`. -/
def indentChars (n : Nat) : List Char := List.replicate (2 * n) ' '

/-- JSON string escaping for the characters that occur in this subsystem. -/
def escapeChar (c : Char) : List Char :=
  if c == '"' then ['\\', '"']
  else if c == '\\' then ['\\', '\\']
  else if c == '\n' then ['\\', 'n']
  else if c == '\t' then ['\\', 't']
  else if c == '\r' then ['\\', 'r']
  else [c]

def escapeChars (cs : List Char) : List Char :=
  (cs.map escapeChar).flatten

/-- A serialized JSON string literal. -/
def ppString (s : String) : List Char :=
  '"' :: (escapeChars s.data ++ ['"'])

mutual

/-- Modelled from the spec: `JSON.stringify(j, undefined, 2)` (host runtime),
"pretty-printed JSON, stable 2-space indentation".  `ind` is the current
nesting level; the caller emits the indentation in front of the value. -/
def ppChars (ind : Nat) : Json → List Char
  | .null => ['n', 'u', 'l', 'l']
  | .bool true => ('t' :: ['r', 'u', 'e'])
  | .bool false => ['f', 'a', 'l', 's', 'e']
  | .num ds => ds
  | .str s => ppString s
  | .arr [] => ['[', ']']
  | .arr (e :: es) =>
    '[' :: '\n' :: (indentChars (ind + 1) ++ ppChars (ind + 1) e ++
      ppElemsRest (ind + 1) es ++ '\n' :: (indentChars ind ++ [']']))
  | .obj [] => [lbrace, rbrace]
  | .obj (f :: fs) =>
    lbrace :: '\n' :: (indentChars (ind + 1) ++ ppField (ind + 1) f ++
      ppFieldsRest (ind + 1) fs ++ '\n' :: (indentChars ind ++ [rbrace]))

def ppElemsRest (ind : Nat) : List Json → List Char
  | [] => []
  | e :: es =>
    ',' :: '\n' :: (indentChars ind ++ ppChars ind e ++ ppElemsRest ind es)

def ppField (ind : Nat) : String × Json → List Char
  | (k, v) => ppString k ++ ':' :: ' ' :: ppChars ind v

def ppFieldsRest (ind : Nat) : List (String × Json) → List Char
  | [] => []
  | f :: fs =>
    ',' :: '\n' :: (indentChars ind ++ ppField ind f ++ ppFieldsRest ind fs)

end

/-- `JSON.stringify(j, undefined, 2)` as a `String`. -/
def ppJsonStr (j : Json) : String := ⟨ppChars 0 j⟩

/-! ## `JSON.parse` -/

def isWsChar (c : Char) : Bool :=
  c == ' ' || c == '\n' || c == '\t' || c == '\r'

def skipWs : List Char → List Char
  | [] => []
  | c :: cs => if isWsChar c then skipWs cs else c :: cs

/-- Unescaping of the escape sequences `ppChars` can emit. -/
def unescapeChar (c : Char) : Option Char :=
  if c == '"' then some '"'
  else if c == '\\' then some '\\'
  else if c == 'n' then some '\n'
  else if c == 't' then some '\t'
  else if c == 'r' then some '\r'
  else if c == '/' then some '/'
  else none

/-- Reads a JSON string body after the opening quote; returns the unescaped
content and the remainder after the closing quote. -/
def readStringBody : List Char → Option (List Char × List Char)
  | [] => none
  | c :: rest =>
    if c == '"' then some ([], rest)
    else if c == '\\' then
      match rest with
      | [] => none
      | e :: rest' =>
        match unescapeChar e, readStringBody rest' with
        | some u, some (s, r) => some (u :: s, r)
        | _, _ => none
    else
      match readStringBody rest with
      | some (s, r) => some (c :: s, r)
      | none => none

/-- Consume an expected literal continuation (used for `true`/`false`/`null`
after their already-inspected first character). -/
def dropLit : List Char → List Char → Option (List Char)
  | [], cs => some cs
  | _ :: _, [] => none
  | l :: ls, c :: cs => if c == l then dropLit ls cs else none

mutual

/-- Modelled from the spec: `JSON.parse` (host runtime), "fail ... if invalid
JSON".  Fuel-indexed recursive descent on the character list; `parseVal`
expects the value to start immediately (callers skip whitespace). -/
def parseVal : Nat → List Char → Option (Json × List Char)
  | 0, _ => none
  | fuel + 1, cs =>
    match cs with
    | [] => none
    | c :: rest =>
      if c == 't' then
        (match dropLit ['r', 'u', 'e'] rest with
         | some r => some (.bool true, r)
         | none => none)
      else if c == 'f' then
        (match dropLit ['a', 'l', 's', 'e'] rest with
         | some r => some (.bool false, r)
         | none => none)
      else if c == 'n' then
        (match dropLit ['u', 'l', 'l'] rest with
         | some r => some (.null, r)
         | none => none)
      else if c == '"' then
        (match readStringBody rest with
         | some (s, r) => some (.str ⟨s⟩, r)
         | none => none)
      else if c == '[' then
        (match skipWs rest with
         | [] => none
         | c' :: r =>
           if c' == ']' then some (.arr [], r)
           else
             match parseElems fuel (c' :: r) with
             | some (es, r') => some (.arr es, r')
             | none => none)
      else if c == lbrace then
        (match skipWs rest with
         | [] => none
         | c' :: r =>
           if c' == rbrace then some (.obj [], r)
           else
             match parseFields fuel (c' :: r) with
             | some (fs, r') =>
               some (.obj (fs.foldl (fun acc kv => objAssign acc kv.1 kv.2) []), r')
             | none => none)
      else if c.isDigit then
        some (.num (c :: rest.takeWhile Char.isDigit), rest.dropWhile Char.isDigit)
      else none

/-- Parses a non-empty comma-separated element list up to and including the
closing bracket; the input starts at the first element (whitespace skipped). -/
def parseElems : Nat → List Char → Option (List Json × List Char)
  | 0, _ => none
  | fuel + 1, cs =>
    match parseVal fuel cs with
    | none => none
    | some (e, r) =>
      match skipWs r with
      | [] => none
      | c :: r2 =>
        if c == ',' then
          (match parseElems fuel (skipWs r2) with
           | some (es, r3) => some (e :: es, r3)
           | none => none)
        else if c == ']' then some ([e], r2)
        else none

/-- Parses a non-empty field list up to and including the closing brace; the
input starts at the opening quote of the first key (whitespace skipped). -/
def parseFields : Nat → List Char → Option (List (String × Json) × List Char)
  | 0, _ => none
  | fuel + 1, cs =>
    match cs with
    | [] => none
    | c :: r =>
      if c == '"' then
        (match readStringBody r with
         | none => none
         | some (k, r1) =>
           match skipWs r1 with
           | [] => none
           | c1 :: r2 =>
             if c1 == ':' then
               (match parseVal fuel (skipWs r2) with
                | none => none
                | some (v, r3) =>
                  match skipWs r3 with
                  | [] => none
                  | c2 :: r4 =>
                    if c2 == ',' then
                      (match parseFields fuel (skipWs r4) with
                       | some (fs, r5) => some ((⟨k⟩, v) :: fs, r5)
                       | none => none)
                    else if c2 == rbrace then some ([(⟨k⟩, v)], r4)
                    else none)
             else none)
      else none

end

/-- `JSON.parse` on a string: the whole input must be consumed. -/
def parseJson (s : String) : Option Json :=
  let cs := skipWs s.data
  match parseVal (cs.length + 1) cs with
  | some (j, rest) => if (skipWs rest).isEmpty then some j else none
  | none => none

/-! ## Manifest scanning (`createMultipleNewLocalFileExtensions`, menu.ts:109-147)

Paths are modelled as component lists (`path.resolve(entryPath, name)` appends
one component; `path.basename` is the last component).  The filesystem below a
picked root is a tree; `fs.promises.stat` is the constructor case split and
`fs.promises.readdir` lists the children's names. -/

inductive FsNode where
  | file (name : String)
  | dir (name : String) (children : List FsNode)
deriving Repr

def FsNode.name : FsNode → String
  | .file n => n
  | .dir n _ => n

/-- The only error the scan throws: `Manifest must be named 'manifest.json'`
(menu.ts:140). -/
inductive ScanError where
  | manifestNaming
deriving DecidableEq, Repr

/-- The shared mutable state the scan touches: the extension registry
(insertion-ordered id/path records plus the next fresh id) and the handler's
`added` / `existed` accumulator arrays. -/
structure ScanState where
  registry : List (Nat × List String)
  nextId : Nat
  added : List Nat
  existed : List Nat
deriving DecidableEq, Repr

/-- Modelled from the spec: `Ext.addPath` of `Main/ExtensionManager` (absent
from src/): idempotent registration keyed by manifest path — an already-known
path returns its existing id with `existed = true`, otherwise a fresh id is
minted and the record stored. -/
def ExtAddPath (p : List String) (st : ScanState) : (Nat × Bool) × ScanState :=
  match st.registry.find? (fun r => r.2 == p) with
  | some r => ((r.1, true), st)
  | none =>
    ((st.nextId, false),
     { st with registry := st.registry ++ [(st.nextId, p)], nextId := st.nextId + 1 })

/-- Push an `addPath` result onto the handler's accumulator arrays
(menu.ts:132-138). -/
def pushScanResult : (Nat × Bool) × ScanState → ScanState
  | ((i, true), st) => { st with existed := st.existed ++ [i] }
  | ((i, false), st) => { st with added := st.added ++ [i] }

/-- The non-directory-descent tail of `processEntry` (menu.ts:131-141): a
basename equal to the manifest filename registers the entry; otherwise a
top-level pick throws the naming error and a recursive visit is silently
ignored.  Errors are returned alongside the state because the registry
mutations performed by sibling tasks persist when `Promise.all` rejects. -/
def manifestLeaf (pre : List String) (name : String) (topLevel : Bool)
    (st : ScanState) : ScanState × Option ScanError :=
  if name == MANIFEST_FILE_NAME then
    (pushScanResult (ExtAddPath (pre ++ [name]) st), none)
  else if topLevel then (st, some .manifestNaming)
  else (st, none)

/-- Combine the outcomes of sibling tasks: `Promise.all` surfaces a rejection
but the other tasks still run to completion. -/
def firstScanErr : Option ScanError → Option ScanError → Option ScanError
  | some e, _ => some e
  | none, e => e

mutual

/-- `processEntry` (menu.ts:121-142).  `pre` is the path of the parent
directory, so the entry's own path is `pre ++ [node.name]`.  A directory with
remaining depth `> 0` recurses into its non-hidden children with the depth
decremented and `topLevel = false`; anything else falls through to the
basename check. -/
def processEntry (pre : List String) (node : FsNode) (depth : Nat)
    (topLevel : Bool) (st : ScanState) : ScanState × Option ScanError :=
  match node with
  | .file name => manifestLeaf pre name topLevel st
  | .dir name children =>
    if depth > 0 then processChildren (pre ++ [name]) children (depth - 1) st
    else manifestLeaf pre name topLevel st

/-- The `Promise.all(fileNames.map ...)` fan-out over a directory's children
(menu.ts:125-130), sequentialized; entries whose name begins with `.` were
filtered out before the fan-out. -/
def processChildren (pre : List String) (nodes : List FsNode) (depth : Nat)
    (st : ScanState) : ScanState × Option ScanError :=
  match nodes with
  | [] => (st, none)
  | c :: rest =>
    if startsWithDot c.name then processChildren pre rest depth st
    else
      match processEntry pre c depth false st with
      | (st', e) =>
        match processChildren pre rest depth st' with
        | (st'', e') => (st'', firstScanErr e e')

end

/-- The `Promise.all(pickedPaths.map ...)` fan-out over the picked roots
(menu.ts:144), sequentialized.  Each pick is the tree rooted at the picked
path together with the components of its parent directory. -/
def processRoots (picks : List (List String × FsNode)) (depth : Nat)
    (st : ScanState) : ScanState × Option ScanError :=
  match picks with
  | [] => (st, none)
  | (pre, t) :: rest =>
    match processEntry pre t depth true st with
    | (st', e) =>
      match processRoots rest depth st' with
      | (st'', e') => (st'', firstScanErr e e')

/-- The `createMultipleNewLocalFileExtensions` handler (menu.ts:109-147).
`dialogResult = none` is a cancelled (or null) open dialog; the result state
carries the `added` / `existed` arrays the handler returns, and the error
component is the rejection of the joint wait, if any. -/
def createMultipleNewLocalFileExtensions
    (dialogResult : Option (List (List String × FsNode))) (depth : Nat)
    (registry : List (Nat × List String)) (nextId : Nat) :
    ScanState × Option ScanError :=
  let st0 : ScanState := ⟨registry, nextId, [], []⟩
  match dialogResult with
  | none => (st0, none)
  | some picks => processRoots picks depth st0

/-- The manifest paths currently registered. -/
def registeredPaths (st : ScanState) : List (List String) :=
  st.registry.map (fun r => r.2)

/-! Specification-level description of the same traversal, used to state the
depth-boundary property: the root-relative paths at which a scan with the
given remaining depth performs a registration. -/

mutual

def scanHits : FsNode → Nat → List (List String)
  | .file n, _ => if n == MANIFEST_FILE_NAME then [[]] else []
  | .dir n cs, d =>
    if d > 0 then hitsChildren cs (d - 1)
    else if n == MANIFEST_FILE_NAME then [[]] else []

def hitsChildren : List FsNode → Nat → List (List String)
  | [], _ => []
  | c :: cs, d =>
    (if startsWithDot c.name then []
     else (scanHits c d).map (fun r => c.name :: r)) ++ hitsChildren cs d

end

mutual

/-- `isManifestFileAt t p` holds when following the components `p` from `t`
through non-hidden directory entries reaches a file named exactly
`MANIFEST_FILE_NAME`. -/
def isManifestFileAt : FsNode → List String → Bool
  | .file nm, [] => nm == MANIFEST_FILE_NAME
  | .file _, _ :: _ => false
  | .dir _ _, [] => false
  | .dir _ children, c :: p => childHasManifest children c p

def childHasManifest : List FsNode → String → List String → Bool
  | [], _, _ => false
  | ch :: rest, c, p =>
    (ch.name == c && !(startsWithDot c) && isManifestFileAt ch p) ||
      childHasManifest rest c p

end

mutual

/-- Node count of a tree, for size-bounded induction. -/
def FsNode.size : FsNode → Nat
  | .file _ => 1
  | .dir _ cs => 1 + sizeFsList cs

def sizeFsList : List FsNode → Nat
  | [] => 0
  | c :: cs => 1 + FsNode.size c + sizeFsList cs

end

/-! ## Package writing (`writeNewExtensionToDisk`, menu.ts:186-276) -/

/-- The content of an in-memory pending file: a string or a binary buffer
(the manifest must be a string; buffer contents are opaque to the claims). -/
inductive FileContent where
  | str (s : String)
  | bin
deriving DecidableEq, Repr

/-- Structural equality for `FileContent`. -/
def FileContent.eqb : FileContent → FileContent → Bool
  | .str a, .str b => a == b
  | .bin, .bin => true
  | _, _ => false

structure PendingFile where
  name : String
  content : FileContent
deriving DecidableEq, Repr

/-- The error taxonomy of the handler, one constructor per `throw` site, in
source order of first occurrence. -/
inductive WriteError where
  | invalidFile (name : String)
  | manifestNotString
  | manifestParse
  | manifestShape
  | reservedField
  | noManifest
  | invalidDirectory
  | destinationExists
  | unexpectedDuplicate
deriving DecidableEq, Repr

/-- The handler's observable outcome: a thrown error, the `undefined` of a
cancelled save dialog, or the new extension id. -/
inductive WriteOutcome where
  | err (e : WriteError)
  | cancelled
  | ok (id : Nat)
deriving DecidableEq, Repr

/-- The state `writeNewExtensionToDisk` can touch: the extension registry
(string-keyed here, as the handler works with joined path strings), the
filesystem (pre-existing paths, directories created, files written with their
contents), the `lastSavedPluginDir` setting, and the error log. -/
structure WriteState where
  registry : List (Nat × String)
  nextId : Nat
  fsExisting : List String
  fsDirsCreated : List String
  fsFilesWritten : List (String × FileContent)
  lastSavedPluginDir : Option String
  loggedErrors : List String
deriving DecidableEq, Repr

/-- One iteration of the validation loop (menu.ts:190-213) for a single file:
name checks, then — for a file named exactly like the manifest — the
string/parse/shape/reserved-field checks; a passing manifest becomes the
remembered `manifest`/`manifestFile` pair (index into the original array). -/
def validateGo : List PendingFile → Nat → Option (Json × Nat) →
    Except WriteError (Option (Json × Nat))
  | [], _, acc => .ok acc
  | f :: fs, i, acc =>
    if !(nameValid f.name) then .error (.invalidFile f.name)
    else if f.name == MANIFEST_FILE_NAME then
      match f.content with
      | .bin => .error .manifestNotString
      | .str s =>
        match parseJson s with
        | none => .error .manifestParse
        | some j =>
          if jsObjLike j then
            if jsTruthyOpt (jsGet j "build") then .error .reservedField
            else validateGo fs (i + 1) (some (j, i))
          else .error .manifestShape
    else validateGo fs (i + 1) acc

/-- The whole validation loop over `data.files`. -/
def validateFiles (files : List PendingFile) :
    Except WriteError (Option (Json × Nat)) :=
  validateGo files 0 none

/-- Replace the content of the file at an index, keeping its name
(`manifestFile.content = ...`, menu.ts:243, mutates the array element in
place). -/
def setContentAt : List PendingFile → Nat → FileContent → List PendingFile
  | [], _, _ => []
  | f :: fs, 0, c => ⟨f.name, c⟩ :: fs
  | f :: fs, i + 1, c => f :: setContentAt fs i c

/-- The concurrent best-effort write phase (menu.ts:253-267): each file is
written under the save directory; a failing write (membership in the
environment's `failSet`) is logged and skipped, never fatal. -/
def writeLoop (saveDir : String) (failSet : List String) :
    List PendingFile → WriteState → WriteState
  | [], st => st
  | f :: fs, st =>
    let p := pathJoin saveDir f.name
    if failSet.contains p then
      writeLoop saveDir failSet fs
        { st with loggedErrors := st.loggedErrors ++ [p] }
    else
      writeLoop saveDir failSet fs
        { st with fsFilesWritten := st.fsFilesWritten ++ [(p, f.content)],
                  fsExisting := st.fsExisting ++ [p] }

/-- The `writeNewExtensionToDisk` handler (menu.ts:186-276).  Environment:
`saveDirDialog` is the save-location prompt's result (`none` = cancelled;
a falsy empty string is also treated as cancellation, as in `if (!saveDir)`),
and `failSet` the paths whose disk write fails.  The `sanitizeFileName(
data.dirName)` / last-directory combination (menu.ts:219-221) only feeds the
dialog's default path suggestion and is not observable in the model's state.
Mirrors the source's statement order: the last-save-directory setting is
updated before the empty-basename check and the existence check, the manifest
`name` default is applied (and its serialized content rewritten) before the
existence check, and registration happens after the joint write wait. -/
def writeNewExtensionToDisk (files : List PendingFile) (dirName : String)
    (saveDirDialog : Option String) (failSet : List String)
    (st : WriteState) : WriteState × WriteOutcome :=
  match validateFiles files with
  | .error e => (st, .err e)
  | .ok none => (st, .err .noManifest)
  | .ok (some (manifest, idx)) =>
    let _dirSuggestion :=
      (fun dn =>
        match st.lastSavedPluginDir with
        | some lastDir => if !(lastDir == "") then lastDir ++ "/" ++ dn else dn
        | none => dn) (sanitizeFileName dirName)
    match saveDirDialog with
    | none => (st, .cancelled)
    | some saveDir =>
      if saveDir == "" then (st, .cancelled)
      else
        let base := pathBasename saveDir
        let st1 := { st with lastSavedPluginDir := some (pathDirname saveDir) }
        if base == "" then (st1, .err .invalidDirectory)
        else
          let needName := !(jsTruthyOpt (jsGet manifest "name"))
          let manifest1 := if needName then jsSet manifest "name" (.str base) else manifest
          let files1 :=
            if needName then setContentAt files idx (.str (ppJsonStr manifest1))
            else files
          if st1.fsExisting.contains saveDir then (st1, .err .destinationExists)
          else
            let st2 := { st1 with fsExisting := st1.fsExisting ++ [saveDir],
                                  fsDirsCreated := st1.fsDirsCreated ++ [saveDir] }
            let st3 := writeLoop saveDir failSet files1 st2
            let manifestPath := pathJoin saveDir MANIFEST_FILE_NAME
            match st3.registry.find? (fun r => r.2 == manifestPath) with
            | some _ => (st3, .err .unexpectedDuplicate)
            | none =>
              ({ st3 with registry := st3.registry ++ [(st3.nextId, manifestPath)],
                          nextId := st3.nextId + 1 },
               .ok st3.nextId)

/-- The per-file step the validation loop performs without erroring: valid
name, and — for a manifest-named file — string content parsing to a non-null
object-typed value with a falsy `build`. -/
def fileStepOk (f : PendingFile) : Bool :=
  nameValid f.name &&
    (if f.name == MANIFEST_FILE_NAME then
      (match f.content with
       | .bin => false
       | .str s =>
         match parseJson s with
         | none => false
         | some j => jsObjLike j && !(jsTruthyOpt (jsGet j "build")))
     else true)

/-- The first file of the set named exactly like the manifest. -/
def firstManifestFile (files : List PendingFile) : Option PendingFile :=
  files.find? (fun f => f.name == MANIFEST_FILE_NAME)

/-! ## File export (`writeFiles`, menu.ts:293-355) -/

structure ExportFile where
  name : String
deriving DecidableEq, Repr

/-- The state `writeFiles` touches: files written, directories created, the
export-directory settings, and the details of the error dialogs shown. -/
structure ExportState where
  written : List String
  dirsCreated : List String
  lastExportDir : Option String
  exportDir : Option String
  errorDialogDetails : List String
deriving DecidableEq, Repr

/-- The `detail` string of the per-file failure dialog (menu.ts:351). -/
def exportFailDetail (name : String) : String :=
  "\"" ++ name ++ "\" could not be saved. Remaining files will not be saved."

/-- The per-file export loop (menu.ts:340-354): create intermediate
directories, then write; a failing write (membership in `failSet`) shows an
error dialog and the loop continues with the next file. -/
def exportWriteLoop (dirPath : String) (failSet : List String) :
    List ExportFile → ExportState → ExportState
  | [], st => st
  | f :: fs, st =>
    let outputPath := pathJoin dirPath f.name
    let st' := { st with dirsCreated := st.dirsCreated ++ [pathDirname outputPath] }
    let st'' :=
      if failSet.contains outputPath then
        { st' with errorDialogDetails :=
            st'.errorDialogDetails ++ [exportFailDetail f.name] }
      else { st' with written := st'.written ++ [outputPath] }
    exportWriteLoop dirPath failSet fs st''

/-- The `writeFiles` handler (menu.ts:293-355).  Environment: `savePathDialog`
is the single-file save prompt's result and `dirsDialog` the directory
prompt's; `failSet` the output paths whose write fails.  The `lastDir` default
path only feeds the dialogs' suggestions.  In the single-file branch the
chosen basename replaces the file's name, with the original extension appended
when the chosen name has none; the `skipReplaceConfirmation` flag is set but
never read afterwards in the source. -/
def writeFilesHandler (files : List ExportFile) (savePathDialog : Option String)
    (dirsDialog : Option (List String)) (failSet : List String)
    (st : ExportState) : ExportState :=
  match files with
  | [] => st
  | f0 :: rest =>
    if rest.isEmpty && !(containsSlash f0.name) then
      match savePathDialog with
      | none => st
      | some savePath =>
        if savePath == "" then st
        else
          let dirPath := pathDirname savePath
          let newName0 := pathBasename savePath
          let newName :=
            if pathExtname newName0 == "" then newName0 ++ pathExtname f0.name
            else newName0
          let st1 := { st with lastExportDir := some (pathDirname savePath) }
          exportWriteLoop dirPath failSet (⟨newName⟩ :: rest) st1
    else
      match dirsDialog with
      | some [d] =>
        exportWriteLoop d failSet (f0 :: rest) { st with lastExportDir := some d }
      | _ => st

/-! ## Well-formedness and size measures for the JSON round-trip -/

/-- A character that serializes to itself inside a JSON string literal. -/
def wfChar (c : Char) : Bool :=
  !(c == '"') && !(c == '\\') && !(c == '\n') && !(c == '\t') && !(c == '\r')

mutual

/-- Well-formed JSON values: strings and keys contain only characters that
need no escaping, numbers are non-empty digit runs, object keys are distinct
(the shape `JSON.stringify` can actually receive from a JS object). -/
def wfJson : Json → Bool
  | .null => true
  | .bool _ => true
  | .num ds => !ds.isEmpty && ds.all Char.isDigit
  | .str s => s.data.all wfChar
  | .arr es => wfList es
  | .obj fs => wfFields fs

def wfList : List Json → Bool
  | [] => true
  | e :: es => wfJson e && wfList es

def wfFields : List (String × Json) → Bool
  | [] => true
  | (k, v) :: fs =>
    k.data.all wfChar && !(fs.any (fun g => g.1 == k)) && wfJson v && wfFields fs

end

mutual

/-- Structural size of a JSON value, the fuel needed to parse it back. -/
def fsize : Json → Nat
  | .null => 1
  | .bool _ => 1
  | .num _ => 1
  | .str _ => 1
  | .arr es => 1 + fsizeL es
  | .obj fs => 1 + fsizeF fs

def fsizeL : List Json → Nat
  | [] => 0
  | e :: es => 1 + fsize e + fsizeL es

def fsizeF : List (String × Json) → Nat
  | [] => 0
  | (_, v) :: fs => 1 + fsize v + fsizeF fs

end

/-- The first input character, if any, is not a digit (the context in which a
printed number is always read back). -/
def headNotDigit : List Char → Bool
  | [] => true
  | c :: _ => !c.isDigit

/-! # Theorems -/

/-! ## Character and whitespace helpers -/

theorem digit_beq_false {c d : Char} (h : c.isDigit = true)
    (hd : d.isDigit = false) : (c == d) = false := by
  cases hb : c == d with
  | false => rfl
  | true =>
    have he : c = d := eq_of_beq hb
    rw [he] at h
    rw [h] at hd
    exact absurd hd (by simp)

theorem isWsChar_of_digit {c : Char} (h : c.isDigit = true) :
    isWsChar c = false := by
  unfold isWsChar
  rw [digit_beq_false h (by decide), digit_beq_false h (by decide),
    digit_beq_false h (by decide), digit_beq_false h (by decide)]
  rfl

theorem skipWs_replicate_space (n : Nat) (cs : List Char) :
    skipWs (List.replicate n ' ' ++ cs) = skipWs cs := by
  induction n with
  | zero => simp
  | succ n ih =>
    rw [List.replicate_succ, List.cons_append, skipWs]
    rw [if_pos (by decide)]
    exact ih

theorem skipWs_indent (n : Nat) (cs : List Char) :
    skipWs (indentChars n ++ cs) = skipWs cs := by
  unfold indentChars
  exact skipWs_replicate_space _ _

theorem skipWs_nl (cs : List Char) : skipWs ('\n' :: cs) = skipWs cs := by
  rw [skipWs, if_pos (by decide)]

theorem skipWs_space (cs : List Char) : skipWs (' ' :: cs) = skipWs cs := by
  rw [skipWs, if_pos (by decide)]

theorem skipWs_nonWs {c : Char} (h : isWsChar c = false) (cs : List Char) :
    skipWs (c :: cs) = c :: cs := by
  rw [skipWs, if_neg (by simp [h])]

/-! ## JSON printer head shape -/

theorem wfJson_num_parts {ds : List Char} (h : wfJson (.num ds) = true) :
    ds.isEmpty = false ∧ ds.all Char.isDigit = true := by
  unfold wfJson at h
  simp only [Bool.and_eq_true, Bool.not_eq_true'] at h
  exact h

theorem ppChars_head (j : Json) (ind : Nat) (h : wfJson j = true) :
    ∃ hd tl, ppChars ind j = hd :: tl ∧ isWsChar hd = false ∧
      (hd == ']') = false := by
  cases j with
  | null => exact ⟨'n', _, rfl, by decide, by decide⟩
  | bool b =>
    cases b with
    | false => exact ⟨'f', _, rfl, by decide, by decide⟩
    | true => exact ⟨'t', _, rfl, by decide, by decide⟩
  | num ds =>
    obtain ⟨h1, h2⟩ := wfJson_num_parts h
    cases ds with
    | nil => simp at h1
    | cons d ds' =>
      simp only [List.all_cons, Bool.and_eq_true] at h2
      exact ⟨d, ds', rfl, isWsChar_of_digit h2.1,
        digit_beq_false h2.1 (by decide)⟩
  | str s => exact ⟨'"', _, rfl, by decide, by decide⟩
  | arr es =>
    cases es with
    | nil => exact ⟨'[', _, rfl, by decide, by decide⟩
    | cons e es' => exact ⟨'[', _, rfl, by decide, by decide⟩
  | obj fs =>
    cases fs with
    | nil => exact ⟨lbrace, _, rfl, by decide, by decide⟩
    | cons f fs' => exact ⟨lbrace, _, rfl, by decide, by decide⟩

/-! ## String-literal and token round-trips -/

theorem wfChar_spec {c : Char} (h : wfChar c = true) :
    (c == '"') = false ∧ (c == '\\') = false ∧ (c == '\n') = false ∧
      (c == '\t') = false ∧ (c == '\r') = false := by
  unfold wfChar at h
  simp only [Bool.and_eq_true, Bool.not_eq_true'] at h
  tauto

theorem escapeChar_wf {c : Char} (h : wfChar c = true) : escapeChar c = [c] := by
  obtain ⟨h1, h2, h3, h4, h5⟩ := wfChar_spec h
  unfold escapeChar
  rw [if_neg (by simp [h1]), if_neg (by simp [h2]), if_neg (by simp [h3]),
    if_neg (by simp [h4]), if_neg (by simp [h5])]

theorem escapeChars_wf {cs : List Char} (h : cs.all wfChar = true) :
    escapeChars cs = cs := by
  induction cs with
  | nil => rfl
  | cons c cs ih =>
    simp only [List.all_cons, Bool.and_eq_true] at h
    unfold escapeChars at ih ⊢
    rw [List.map_cons, List.flatten_cons, escapeChar_wf h.1, ih h.2]
    rfl

theorem readStringBody_append (cs rest : List Char) (h : cs.all wfChar = true) :
    readStringBody (cs ++ '"' :: rest) = some (cs, rest) := by
  induction cs with
  | nil =>
    rw [List.nil_append, readStringBody.eq_def]
    simp
  | cons c cs ih =>
    simp only [List.all_cons, Bool.and_eq_true] at h
    obtain ⟨h1, h2, _⟩ := wfChar_spec h.1
    rw [List.cons_append, readStringBody.eq_def]
    simp only [h1, h2, Bool.false_eq_true, if_false, ih h.2]

theorem dropLit_append (lit rest : List Char) :
    dropLit lit (lit ++ rest) = some rest := by
  induction lit with
  | nil => rfl
  | cons l ls ih =>
    rw [List.cons_append, dropLit, if_pos (by simp), ih]

theorem digits_split (ds rest : List Char) (h : ds.all Char.isDigit = true)
    (hr : headNotDigit rest = true) :
    (ds ++ rest).takeWhile Char.isDigit = ds ∧
      (ds ++ rest).dropWhile Char.isDigit = rest := by
  induction ds with
  | nil =>
    cases rest with
    | nil => simp
    | cons c r =>
      unfold headNotDigit at hr
      simp only [Bool.not_eq_true'] at hr
      simp [List.takeWhile_cons, List.dropWhile_cons, hr]
  | cons d ds ih =>
    simp only [List.all_cons, Bool.and_eq_true] at h
    obtain ⟨h1, h2⟩ := h
    obtain ⟨iht, ihd⟩ := ih h2
    constructor
    · simp [List.takeWhile_cons, h1, iht]
    · simp [List.dropWhile_cons, h1, ihd]

/-! ## Object-field folding (JS duplicate-key semantics on unique keys) -/

theorem objAssign_append (acc : List (String × Json)) (k : String) (v : Json)
    (h : acc.any (fun g => g.1 == k) = false) :
    objAssign acc k v = acc ++ [(k, v)] := by
  induction acc with
  | nil => rfl
  | cons a acc ih =>
    obtain ⟨k', v'⟩ := a
    simp only [List.any_cons, Bool.or_eq_false_iff] at h
    rw [objAssign, if_neg (by simp [h.1]), ih h.2]
    rfl

theorem wfFields_cons {k : String} {v : Json} {fs : List (String × Json)}
    (h : wfFields ((k, v) :: fs) = true) :
    k.data.all wfChar = true ∧ fs.any (fun g => g.1 == k) = false ∧
      wfJson v = true ∧ wfFields fs = true := by
  rw [wfFields.eq_def] at h
  simp only [Bool.and_eq_true, Bool.not_eq_true'] at h
  obtain ⟨⟨⟨hall, hnodup⟩, hv⟩, hwfr⟩ := h
  exact ⟨hall, hnodup, hv, hwfr⟩

theorem foldAssign_acc (fs : List (String × Json)) :
    ∀ acc, wfFields fs = true →
      (∀ kv ∈ fs, acc.any (fun g => g.1 == kv.1) = false) →
      fs.foldl (fun acc kv => objAssign acc kv.1 kv.2) acc = acc ++ fs := by
  induction fs with
  | nil => intro acc _ _; simp
  | cons f fs ih =>
    intro acc hwf hacc
    obtain ⟨k, v⟩ := f
    obtain ⟨_, hnodup, _, hwfr⟩ := wfFields_cons hwf
    rw [List.foldl_cons]
    have hassign : objAssign acc k v = acc ++ [(k, v)] :=
      objAssign_append acc k v (hacc (k, v) (by simp))
    rw [hassign, ih (acc ++ [(k, v)]) hwfr]
    · simp
    · intro kv hkv
      rw [List.any_append]
      have hleft : acc.any (fun g => g.1 == kv.1) = false :=
        hacc kv (by simp [hkv])
      have hk : (k == kv.1) = false := by
        have h0 := List.any_eq_false.mp hnodup kv hkv
        rw [beq_eq_false_iff_ne]
        intro he
        exact h0 (by simp [he])
      simp [hleft, hk]

theorem foldAssign_id (fs : List (String × Json)) (h : wfFields fs = true) :
    fs.foldl (fun acc kv => objAssign acc kv.1 kv.2) [] = fs := by
  have := foldAssign_acc fs [] h (by intro kv _; rfl)
  simpa using this

/-! ## Well-formedness destructuring -/

theorem wfJson_str_all {s : String} (h : wfJson (.str s) = true) :
    s.data.all wfChar = true := by
  rw [wfJson.eq_def] at h
  exact h

theorem wfJson_arr_list {es : List Json} (h : wfJson (.arr es) = true) :
    wfList es = true := by
  rw [wfJson.eq_def] at h
  exact h

theorem wfJson_obj_fields {fs : List (String × Json)}
    (h : wfJson (.obj fs) = true) : wfFields fs = true := by
  rw [wfJson.eq_def] at h
  exact h

theorem wfList_cons {e : Json} {es : List Json} (h : wfList (e :: es) = true) :
    wfJson e = true ∧ wfList es = true := by
  rw [wfList.eq_def] at h
  simp only [Bool.and_eq_true] at h
  exact h

/-! ## The printed form is at least as long as the parsing fuel it needs -/

mutual

theorem fsize_le_pp (j : Json) (ind : Nat) (h : wfJson j = true) :
    fsize j ≤ (ppChars ind j).length := by
  cases j with
  | null => simp [ppChars, fsize]
  | bool b => cases b <;> simp [ppChars, fsize]
  | num ds =>
    obtain ⟨h1, _⟩ := wfJson_num_parts h
    cases ds with
    | nil => simp at h1
    | cons d ds' => simp [ppChars, fsize]
  | str s => simp [ppChars, fsize, ppString]
  | arr es =>
    cases es with
    | nil => simp [ppChars, fsize, fsizeL]
    | cons e es' =>
      obtain ⟨he, hes⟩ := wfList_cons (wfJson_arr_list h)
      have h1 := fsize_le_pp e (ind + 1) he
      have h2 := fsizeL_le_pp es' (ind + 1) hes
      simp only [ppChars, fsize, fsizeL, List.length_cons, List.length_append]
      omega
  | obj fs =>
    cases fs with
    | nil => simp [ppChars, fsize, fsizeF]
    | cons f fs' =>
      obtain ⟨k, v⟩ := f
      obtain ⟨_, _, hv, hfs⟩ := wfFields_cons (wfJson_obj_fields h)
      have h1 := fsize_le_pp v (ind + 1) hv
      have h2 := fsizeF_le_pp fs' (ind + 1) hfs
      simp only [ppChars, fsize, fsizeF, ppField, ppString, List.length_cons,
        List.length_append]
      omega

theorem fsizeL_le_pp (es : List Json) (ind : Nat) (h : wfList es = true) :
    fsizeL es ≤ (ppElemsRest ind es).length := by
  cases es with
  | nil => simp [ppElemsRest, fsizeL]
  | cons e es' =>
    obtain ⟨he, hes⟩ := wfList_cons h
    have h1 := fsize_le_pp e ind he
    have h2 := fsizeL_le_pp es' ind hes
    simp only [ppElemsRest, fsizeL, List.length_cons, List.length_append]
    omega

theorem fsizeF_le_pp (fs : List (String × Json)) (ind : Nat)
    (h : wfFields fs = true) : fsizeF fs ≤ (ppFieldsRest ind fs).length := by
  cases fs with
  | nil => simp [ppFieldsRest, fsizeF]
  | cons f fs' =>
    obtain ⟨k, v⟩ := f
    obtain ⟨_, _, hv, hfs⟩ := wfFields_cons h
    have h1 := fsize_le_pp v ind hv
    have h2 := fsizeF_le_pp fs' ind hfs
    simp only [ppFieldsRest, ppField, ppString, fsizeF, List.length_cons,
      List.length_append]
    omega

end

/-! ## The parse of a printed well-formed value -/

theorem headNotDigit_cons (c : Char) (cs : List Char) :
    headNotDigit (c :: cs) = !c.isDigit := rfl

theorem fsize_pos (j : Json) : 1 ≤ fsize j := by
  cases j <;> simp [fsize]

theorem fsizeL_cons (e : Json) (es : List Json) :
    fsizeL (e :: es) = 1 + fsize e + fsizeL es := by
  rw [fsizeL.eq_def]

theorem fsizeF_cons (k : String) (v : Json) (fs : List (String × Json)) :
    fsizeF ((k, v) :: fs) = 1 + fsize v + fsizeF fs := by
  rw [fsizeF.eq_def]

theorem fsize_arr (es : List Json) : fsize (.arr es) = 1 + fsizeL es := by
  rw [fsize.eq_def]

theorem fsize_obj (fs : List (String × Json)) : fsize (.obj fs) = 1 + fsizeF fs := by
  rw [fsize.eq_def]

theorem parse_pp_main : ∀ fuel : Nat,
    (∀ j ind rest, wfJson j = true → fsize j ≤ fuel → headNotDigit rest = true →
      parseVal fuel (ppChars ind j ++ rest) = some (j, rest)) ∧
    (∀ e es ind rest, wfJson e = true → wfList es = true →
      fsizeL (e :: es) ≤ fuel →
      parseElems fuel (ppChars (ind + 1) e ++ (ppElemsRest (ind + 1) es ++
        '\n' :: (indentChars ind ++ ']' :: rest))) = some (e :: es, rest)) ∧
    (∀ k v fs ind rest, k.data.all wfChar = true → wfJson v = true →
      wfFields fs = true → fsizeF ((k, v) :: fs) ≤ fuel →
      parseFields fuel (ppField (ind + 1) (k, v) ++ (ppFieldsRest (ind + 1) fs ++
        '\n' :: (indentChars ind ++ rbrace :: rest))) = some ((k, v) :: fs, rest)) := by
  intro fuel
  induction fuel with
  | zero =>
    refine ⟨?_, ?_, ?_⟩
    · intro j _ _ _ hsz _
      exact absurd hsz (by have := fsize_pos j; omega)
    · intro e es _ _ _ _ hsz
      rw [fsizeL_cons] at hsz
      have := fsize_pos e
      omega
    · intro k v fs _ _ _ _ _ hsz
      rw [fsizeF_cons] at hsz
      have := fsize_pos v
      omega
  | succ fuel ih =>
    obtain ⟨ihP, ihQ, ihR⟩ := ih
    refine ⟨?_, ?_, ?_⟩
    · -- parseVal
      intro j ind rest hwf hsz hnd
      cases j with
      | null => simp [parseVal, ppChars, dropLit]
      | bool b => cases b <;> simp [parseVal, ppChars, dropLit]
      | num ds =>
        obtain ⟨h1, h2⟩ := wfJson_num_parts hwf
        cases ds with
        | nil => simp at h1
        | cons d ds' =>
          simp only [List.all_cons, Bool.and_eq_true] at h2
          obtain ⟨hd, hds⟩ := h2
          obtain ⟨ht, hdr⟩ := digits_split ds' rest hds hnd
          simp only [ppChars, List.cons_append]
          simp [parseVal, digit_beq_false hd (by decide : ('t').isDigit = false),
            digit_beq_false hd (by decide : ('f').isDigit = false),
            digit_beq_false hd (by decide : ('n').isDigit = false),
            digit_beq_false hd (by decide : ('"').isDigit = false),
            digit_beq_false hd (by decide : ('[').isDigit = false),
            digit_beq_false hd (by decide : lbrace.isDigit = false),
            hd, ht, hdr]
      | str s =>
        have hall := wfJson_str_all hwf
        simp only [ppChars, ppString, escapeChars_wf hall, List.cons_append,
          List.append_assoc, List.singleton_append]
        simp [parseVal]
        rw [readStringBody_append _ _ hall]
      | arr es =>
        cases es with
        | nil => simp [parseVal, ppChars, skipWs, isWsChar]
        | cons e es' =>
          obtain ⟨he, hes⟩ := wfList_cons (wfJson_arr_list hwf)
          have hszL : fsizeL (e :: es') ≤ fuel := by
            rw [fsize_arr] at hsz
            omega
          have hQ := ihQ e es' ind rest he hes hszL
          obtain ⟨hd, tl, heq, hws, hnb⟩ := ppChars_head e (ind + 1) he
          simp only [ppChars, List.cons_append, List.append_assoc,
            List.singleton_append, List.nil_append]
          simp only [parseVal]
          rw [if_neg (by decide), if_neg (by decide), if_neg (by decide),
            if_neg (by decide), if_pos (by decide)]
          rw [skipWs_nl, skipWs_indent, heq, List.cons_append, skipWs_nonWs hws]
          simp only [hnb, Bool.false_eq_true, if_false]
          rw [← List.cons_append, ← heq, hQ]
      | obj fs =>
        cases fs with
        | nil => simp [parseVal, ppChars, skipWs, isWsChar, lbrace, rbrace]
        | cons f fs' =>
          obtain ⟨k, v⟩ := f
          have hwfF : wfFields ((k, v) :: fs') = true := wfJson_obj_fields hwf
          obtain ⟨hk, _, hv, hfs⟩ := wfFields_cons hwfF
          have hszF : fsizeF ((k, v) :: fs') ≤ fuel := by
            rw [fsize_obj] at hsz
            omega
          have hR := ihR k v fs' ind rest hk hv hfs hszF
          simp only [ppChars, List.cons_append, List.append_assoc,
            List.singleton_append, List.nil_append]
          simp only [parseVal]
          rw [if_neg (by decide), if_neg (by decide), if_neg (by decide),
            if_neg (by decide), if_neg (by decide), if_pos (by decide)]
          rw [skipWs_nl, skipWs_indent]
          simp only [ppField, ppString, List.cons_append, List.append_assoc,
            List.nil_append] at hR ⊢
          rw [skipWs_nonWs (by decide)]
          simp only []
          rw [if_neg (by decide), hR]
          simp only []
          rw [foldAssign_id _ hwfF]
    · -- parseElems
      intro e es ind rest he hes hszL
      have hsze : fsize e ≤ fuel := by
        rw [fsizeL_cons] at hszL
        have := fsize_pos e
        omega
      cases es with
      | nil =>
        simp only [ppElemsRest, List.nil_append]
        have h1 := ihP e (ind + 1) ('\n' :: (indentChars ind ++ ']' :: rest)) he hsze
          (by rw [headNotDigit_cons]; decide)
        simp only [parseElems]
        rw [h1]
        simp [skipWs_nl, skipWs_indent,
          skipWs_nonWs (show isWsChar ']' = false by decide)]
      | cons e2 es2 =>
        obtain ⟨he2, hes2⟩ := wfList_cons hes
        have hszL2 : fsizeL (e2 :: es2) ≤ fuel := by
          rw [fsizeL_cons] at hszL
          omega
        have hQ := ihQ e2 es2 ind rest he2 hes2 hszL2
        simp only [ppElemsRest, List.cons_append, List.append_assoc]
        have h1 := ihP e (ind + 1)
          (',' :: '\n' :: (indentChars (ind + 1) ++ (ppChars (ind + 1) e2 ++
            (ppElemsRest (ind + 1) es2 ++ '\n' :: (indentChars ind ++ ']' :: rest)))))
          he hsze (by rw [headNotDigit_cons]; decide)
        simp only [parseElems]
        obtain ⟨hd, tl, heq, hws, _⟩ := ppChars_head e2 (ind + 1) he2
        rw [h1, heq]
        simp [skipWs_nl, skipWs_indent,
          skipWs_nonWs (show isWsChar ',' = false by decide), skipWs_nonWs hws]
        rw [← List.cons_append, ← heq, hQ]
    · -- parseFields
      intro k v fs ind rest hk hv hfs hszF
      have hszv : fsize v ≤ fuel := by
        rw [fsizeF_cons] at hszF
        omega
      cases fs with
      | nil =>
        simp only [ppField, ppString, ppFieldsRest, List.nil_append,
          List.cons_append, List.append_assoc]
        rw [escapeChars_wf hk]
        have hrsb := readStringBody_append k.data
          (':' :: ' ' :: (ppChars (ind + 1) v ++ '\n' ::
            (indentChars ind ++ rbrace :: rest))) hk
        have h1 := ihP v (ind + 1) ('\n' :: (indentChars ind ++ rbrace :: rest)) hv hszv
          (by rw [headNotDigit_cons]; decide)
        obtain ⟨hd, tl, heq, hws, _⟩ := ppChars_head v (ind + 1) hv
        rw [heq, List.cons_append] at h1
        simp only [rbrace] at h1 hrsb
        simp only [parseFields, rbrace]
        rw [if_pos (by decide), hrsb, heq]
        simp [h1, skipWs_nl, skipWs_indent, skipWs_space, skipWs_nonWs hws,
          skipWs_nonWs (show isWsChar ':' = false by decide),
          skipWs_nonWs (show isWsChar '\x7d' = false by decide)]
      | cons f2 fs2 =>
        obtain ⟨k2, v2⟩ := f2
        obtain ⟨hk2, _, hv2, hfs2⟩ := wfFields_cons hfs
        have hszF2 : fsizeF ((k2, v2) :: fs2) ≤ fuel := by
          rw [fsizeF_cons] at hszF
          omega
        have hR := ihR k2 v2 fs2 ind rest hk2 hv2 hfs2 hszF2
        simp only [ppField, ppString, ppFieldsRest, List.cons_append,
          List.append_assoc, List.nil_append] at hR ⊢
        rw [escapeChars_wf hk]
        have hrsb := readStringBody_append k.data
          (':' :: ' ' :: (ppChars (ind + 1) v ++ ',' :: '\n' ::
            (indentChars (ind + 1) ++ ('"' :: (escapeChars k2.data ++ '"' :: ':' :: ' ' ::
              (ppChars (ind + 1) v2 ++ (ppFieldsRest (ind + 1) fs2 ++ '\n' ::
                (indentChars ind ++ rbrace :: rest))))))))  hk
        have h1 := ihP v (ind + 1)
          (',' :: '\n' :: (indentChars (ind + 1) ++ ('"' :: (escapeChars k2.data ++ '"' :: ':' :: ' ' ::
            (ppChars (ind + 1) v2 ++ (ppFieldsRest (ind + 1) fs2 ++ '\n' ::
              (indentChars ind ++ rbrace :: rest)))))))
          hv hszv (by rw [headNotDigit_cons]; decide)
        simp only [rbrace] at h1 hrsb hR
        simp only [parseFields, rbrace]
        rw [if_pos (by decide), hrsb]
        obtain ⟨hd, tl, heq, hws, _⟩ := ppChars_head v (ind + 1) hv
        rw [heq, List.cons_append] at h1
        rw [heq]
        simp [h1, skipWs_space, skipWs_nl, skipWs_indent,
          skipWs_nonWs (show isWsChar ':' = false by decide),
          skipWs_nonWs (show isWsChar ',' = false by decide),
          skipWs_nonWs (show isWsChar '"' = false by decide),
          skipWs_nonWs hws]
        rw [hR]

/-- Round trip: `JSON.parse` recovers any well-formed value from its
`JSON.stringify(·, undefined, 2)` serialization. -/
theorem parseJson_ppJsonStr (j : Json) (h : wfJson j = true) :
    parseJson (ppJsonStr j) = some j := by
  unfold parseJson ppJsonStr
  have hdata : (String.mk (ppChars 0 j)).data = ppChars 0 j := rfl
  rw [hdata]
  obtain ⟨c, tl, heq, hws, _⟩ := ppChars_head j 0 h
  rw [heq, skipWs_nonWs hws, ← heq]
  have hsz : fsize j ≤ (ppChars 0 j).length + 1 :=
    le_trans (fsize_le_pp j 0 h) (by omega)
  have hP := (parse_pp_main ((ppChars 0 j).length + 1)).1 j 0 [] h hsz (by rfl)
  rw [List.append_nil] at hP
  simp only []
  rw [hP]
  simp [skipWs]

/-! ## Scanner: registry membership -/

theorem sizeFsList_cons (c : FsNode) (cs : List FsNode) :
    sizeFsList (c :: cs) = 1 + FsNode.size c + sizeFsList cs := by
  rw [sizeFsList.eq_def]

theorem size_dir (name : String) (children : List FsNode) :
    FsNode.size (.dir name children) = 1 + sizeFsList children := by
  rw [FsNode.size.eq_def]

theorem size_file (name : String) : FsNode.size (.file name) = 1 := by
  rw [FsNode.size.eq_def]

theorem size_pos_fs (t : FsNode) : 1 ≤ FsNode.size t := by
  cases t with
  | file name => rw [size_file]
  | dir name children => rw [size_dir]; omega

theorem pushScanResult_registry (x : (Nat × Bool) × ScanState) :
    (pushScanResult x).registry = x.2.registry := by
  obtain ⟨⟨i, b⟩, st⟩ := x
  cases b <;> rfl

theorem ExtAddPath_mem (q p : List String) (st : ScanState) :
    q ∈ registeredPaths (ExtAddPath p st).2 ↔
      q ∈ registeredPaths st ∨ q = p := by
  unfold ExtAddPath
  cases hf : st.registry.find? (fun r => r.2 == p) with
  | some r =>
    have hrp : r.2 = p := by
      have := List.find?_some hf
      exact eq_of_beq this
    have hmem : p ∈ registeredPaths st := by
      unfold registeredPaths
      rw [← hrp]
      exact List.mem_map_of_mem _ (List.mem_of_find?_eq_some hf)
    simp only []
    constructor
    · intro h1
      exact Or.inl h1
    · intro h1
      cases h1 with
      | inl h2 => exact h2
      | inr h2 => rw [h2]; exact hmem
  | none =>
    simp only [registeredPaths, List.map_append]
    simp

theorem manifestLeaf_mem (q pre : List String) (name : String) (tl : Bool)
    (st : ScanState) :
    q ∈ registeredPaths (manifestLeaf pre name tl st).1 ↔
      q ∈ registeredPaths st ∨
        (name == MANIFEST_FILE_NAME) = true ∧ q = pre ++ [name] := by
  unfold manifestLeaf
  by_cases hname : (name == MANIFEST_FILE_NAME) = true
  · rw [if_pos hname]
    have hreg : registeredPaths (pushScanResult (ExtAddPath (pre ++ [name]) st)) =
        registeredPaths (ExtAddPath (pre ++ [name]) st).2 := by
      unfold registeredPaths
      rw [pushScanResult_registry]
    simp only []
    rw [hreg, ExtAddPath_mem]
    simp [hname]
  · rw [if_neg hname]
    rw [Bool.not_eq_true] at hname
    cases tl <;> simp [hname]

theorem scan_mem_aux : ∀ n : Nat,
    (∀ t, FsNode.size t ≤ n → ∀ pre d tl st q,
      (q ∈ registeredPaths (processEntry pre t d tl st).1 ↔
        q ∈ registeredPaths st ∨
          ∃ r, r ∈ scanHits t d ∧ q = pre ++ t.name :: r)) ∧
    (∀ ts, sizeFsList ts ≤ n → ∀ pre d st q,
      (q ∈ registeredPaths (processChildren pre ts d st).1 ↔
        q ∈ registeredPaths st ∨
          ∃ r, r ∈ hitsChildren ts d ∧ q = pre ++ r)) := by
  intro n
  induction n with
  | zero =>
    constructor
    · intro t hsz
      exact absurd hsz (by have := size_pos_fs t; omega)
    · intro ts hsz pre d st q
      cases ts with
      | nil => simp [processChildren, hitsChildren]
      | cons c cs =>
        rw [sizeFsList_cons] at hsz
        exact absurd hsz (by have := size_pos_fs c; omega)
  | succ n ih =>
    obtain ⟨ihE, ihC⟩ := ih
    constructor
    · intro t hsz pre d tl st q
      cases t with
      | file name =>
        rw [show processEntry pre (.file name) d tl st =
          manifestLeaf pre name tl st from rfl]
        rw [manifestLeaf_mem]
        rw [show FsNode.name (.file name) = name from rfl]
        rw [scanHits.eq_def]
        cases hname : name == MANIFEST_FILE_NAME <;> simp [hname]
      | dir name children =>
        cases d with
        | zero =>
          rw [show processEntry pre (.dir name children) 0 tl st =
            manifestLeaf pre name tl st from rfl]
          rw [manifestLeaf_mem]
          rw [show FsNode.name (.dir name children) = name from rfl]
          rw [scanHits.eq_def]
          cases hname : name == MANIFEST_FILE_NAME <;> simp [hname]
        | succ d' =>
          have hstep : processEntry pre (.dir name children) (d' + 1) tl st =
              processChildren (pre ++ [name]) children d' st := by
            rw [processEntry.eq_def]
            simp
          rw [hstep]
          have hhits : scanHits (.dir name children) (d' + 1) =
              hitsChildren children d' := by
            rw [scanHits.eq_def]
            simp
          rw [hhits]
          have hszc : sizeFsList children ≤ n := by
            rw [size_dir] at hsz
            omega
          rw [ihC children hszc (pre ++ [name]) d' st q]
          rw [show FsNode.name (.dir name children) = name from rfl]
          simp [List.append_assoc]
    · intro ts hsz pre d st q
      cases ts with
      | nil => simp [processChildren, hitsChildren]
      | cons c cs =>
        rw [sizeFsList_cons] at hsz
        have hszc : FsNode.size c ≤ n := by have := size_pos_fs c; omega
        have hszcs : sizeFsList cs ≤ n := by have := size_pos_fs c; omega
        cases hhid : startsWithDot c.name with
        | true =>
          have hstep : processChildren pre (c :: cs) d st =
              processChildren pre cs d st := by
            rw [processChildren.eq_def]
            simp [hhid]
          rw [hstep, ihC cs hszcs pre d st q]
          conv_rhs => rw [hitsChildren.eq_def]
          simp [hhid]
        | false =>
          rcases hpe : processEntry pre c d false st with ⟨st1, e1⟩
          have hstep : (processChildren pre (c :: cs) d st).1 =
              (processChildren pre cs d st1).1 := by
            rw [processChildren.eq_def]
            simp [hhid, hpe]
          rw [hstep, ihC cs hszcs pre d st1 q]
          have hE := ihE c hszc pre d false st q
          rw [hpe] at hE
          rw [hE]
          conv_rhs => rw [hitsChildren.eq_def]
          simp only [hhid, Bool.false_eq_true, if_false]
          constructor
          · intro h1
            rcases h1 with (h2 | ⟨r, hr, hq⟩) | ⟨r, hr, hq⟩
            · exact Or.inl h2
            · refine Or.inr ⟨c.name :: r, ?_, ?_⟩
              · simp only [List.mem_append]
                exact Or.inl (List.mem_map_of_mem _ hr)
              · simp [hq]
            · exact Or.inr ⟨r, by simp [List.mem_append, hr], hq⟩
          · intro h1
            rcases h1 with h2 | ⟨r, hr, hq⟩
            · exact Or.inl (Or.inl h2)
            · rw [List.mem_append] at hr
              cases hr with
              | inl h3 =>
                obtain ⟨r', hr', hr'e⟩ := List.mem_map.mp h3
                refine Or.inl (Or.inr ⟨r', hr', ?_⟩)
                rw [← hr'e] at hq
                simp [hq]
              | inr h3 => exact Or.inr ⟨r, h3, hq⟩

/-! ## Scanner: depth bound and completeness of discovery -/

theorem isManifestFileAt_file_nil (nm : String) :
    isManifestFileAt (.file nm) [] = (nm == MANIFEST_FILE_NAME) := by
  rw [isManifestFileAt.eq_def]

theorem isManifestFileAt_file_cons (nm c : String) (p : List String) :
    isManifestFileAt (.file nm) (c :: p) = false := by
  rw [isManifestFileAt.eq_def]

theorem isManifestFileAt_dir_nil (nm : String) (cs : List FsNode) :
    isManifestFileAt (.dir nm cs) [] = false := by
  rw [isManifestFileAt.eq_def]

theorem isManifestFileAt_dir_cons (nm : String) (cs : List FsNode)
    (c : String) (p : List String) :
    isManifestFileAt (.dir nm cs) (c :: p) = childHasManifest cs c p := by
  rw [isManifestFileAt.eq_def]

theorem childHasManifest_nil (c : String) (p : List String) :
    childHasManifest [] c p = false := by
  rw [childHasManifest.eq_def]

theorem childHasManifest_cons (ch : FsNode) (rest : List FsNode)
    (c : String) (p : List String) :
    childHasManifest (ch :: rest) c p =
      ((ch.name == c && !(startsWithDot c) && isManifestFileAt ch p) ||
        childHasManifest rest c p) := by
  rw [childHasManifest.eq_def]

theorem hits_len_aux : ∀ n : Nat,
    (∀ t, FsNode.size t ≤ n → ∀ d r, r ∈ scanHits t d → r.length ≤ d) ∧
    (∀ ts, sizeFsList ts ≤ n → ∀ d r, r ∈ hitsChildren ts d →
      r.length ≤ d + 1) := by
  intro n
  induction n with
  | zero =>
    constructor
    · intro t hsz
      exact absurd hsz (by have := size_pos_fs t; omega)
    · intro ts hsz d r hr
      cases ts with
      | nil =>
        rw [hitsChildren.eq_def] at hr
        simp at hr
      | cons c cs =>
        rw [sizeFsList_cons] at hsz
        exact absurd hsz (by have := size_pos_fs c; omega)
  | succ n ih =>
    obtain ⟨ihE, ihC⟩ := ih
    constructor
    · intro t hsz d r hr
      cases t with
      | file name =>
        rw [scanHits.eq_def] at hr
        by_cases hname : (name == MANIFEST_FILE_NAME) = true
        · simp only [hname, if_pos rfl] at hr
          simp at hr
          simp [hr]
        · simp [hname] at hr
      | dir name children =>
        cases d with
        | zero =>
          rw [scanHits.eq_def] at hr
          simp only [Nat.lt_irrefl, if_neg (by omega : ¬ 0 > 0)] at hr
          by_cases hname : (name == MANIFEST_FILE_NAME) = true
          · simp only [hname, if_pos rfl] at hr
            simp at hr
            simp [hr]
          · simp [hname] at hr
        | succ d' =>
          rw [scanHits.eq_def] at hr
          simp only [if_pos (by omega : d' + 1 > 0)] at hr
          have hszc : sizeFsList children ≤ n := by
            rw [size_dir] at hsz
            omega
          have := ihC children hszc d' r hr
          omega
    · intro ts hsz d r hr
      cases ts with
      | nil =>
        rw [hitsChildren.eq_def] at hr
        simp at hr
      | cons c cs =>
        rw [sizeFsList_cons] at hsz
        have hszc : FsNode.size c ≤ n := by have := size_pos_fs c; omega
        have hszcs : sizeFsList cs ≤ n := by have := size_pos_fs c; omega
        rw [hitsChildren.eq_def] at hr
        simp only [List.mem_append] at hr
        cases hr with
        | inl h1 =>
          by_cases hhid : (startsWithDot c.name) = true
          · simp [hhid] at h1
          · simp only [hhid, Bool.false_eq_true, if_false] at h1
            obtain ⟨r', hr', hre⟩ := List.mem_map.mp h1
            have := ihE c hszc d r' hr'
            rw [← hre]
            simp
            omega
        | inr h1 =>
          exact ihC cs hszcs d r h1

theorem hits_complete_aux : ∀ n : Nat,
    (∀ t, FsNode.size t ≤ n → ∀ p d, isManifestFileAt t p = true →
      p.length ≤ d → p ∈ scanHits t d) ∧
    (∀ ts, sizeFsList ts ≤ n → ∀ c p d, childHasManifest ts c p = true →
      p.length ≤ d → (c :: p) ∈ hitsChildren ts d) := by
  intro n
  induction n with
  | zero =>
    constructor
    · intro t hsz
      exact absurd hsz (by have := size_pos_fs t; omega)
    · intro ts hsz c p d hm
      cases ts with
      | nil =>
        rw [childHasManifest_nil] at hm
        simp at hm
      | cons ch cs =>
        rw [sizeFsList_cons] at hsz
        exact absurd hsz (by have := size_pos_fs ch; omega)
  | succ n ih =>
    obtain ⟨ihE, ihC⟩ := ih
    constructor
    · intro t hsz p d hm hlen
      cases t with
      | file name =>
        cases p with
        | nil =>
          rw [isManifestFileAt_file_nil] at hm
          rw [scanHits.eq_def]
          simp only [hm, if_pos rfl]
          simp
        | cons c p' =>
          rw [isManifestFileAt_file_cons] at hm
          simp at hm
      | dir name children =>
        cases p with
        | nil =>
          rw [isManifestFileAt_dir_nil] at hm
          simp at hm
        | cons c p' =>
          rw [isManifestFileAt_dir_cons] at hm
          cases d with
          | zero => simp at hlen
          | succ d' =>
            rw [scanHits.eq_def]
            simp only [if_pos (by omega : d' + 1 > 0)]
            have hszc : sizeFsList children ≤ n := by
              rw [size_dir] at hsz
              omega
            refine ihC children hszc c p' d' hm ?_
            simp at hlen
            omega
    · intro ts hsz c p d hm hlen
      cases ts with
      | nil =>
        rw [childHasManifest_nil] at hm
        simp at hm
      | cons ch cs =>
        rw [sizeFsList_cons] at hsz
        have hszc : FsNode.size ch ≤ n := by have := size_pos_fs ch; omega
        have hszcs : sizeFsList cs ≤ n := by have := size_pos_fs ch; omega
        rw [childHasManifest_cons] at hm
        simp only [Bool.or_eq_true, Bool.and_eq_true] at hm
        rw [hitsChildren.eq_def]
        simp only [List.mem_append]
        cases hm with
        | inl h1 =>
          obtain ⟨⟨hn, hhid⟩, hman⟩ := h1
          have hne : ch.name = c := eq_of_beq hn
          have hhid' : (startsWithDot ch.name) = false := by
            rw [hne]
            simp only [Bool.not_eq_true'] at hhid
            exact hhid
          refine Or.inl ?_
          simp only [hhid', Bool.false_eq_true, if_false]
          refine List.mem_map.mpr ⟨p, ihE ch hszc p d hman hlen, ?_⟩
          rw [hne]
        | inr h1 =>
          exact Or.inr (ihC cs hszcs c p d h1 hlen)

/-! ## Scanner: freshness of the `added` ids -/

theorem manifestLeaf_added_inv (pre : List String) (name : String) (tl : Bool)
    (st : ScanState) (h1 : st.added.Pairwise (· < ·))
    (h2 : ∀ i ∈ st.added, i < st.nextId) :
    (manifestLeaf pre name tl st).1.added.Pairwise (· < ·) ∧
      ∀ i ∈ (manifestLeaf pre name tl st).1.added,
        i < (manifestLeaf pre name tl st).1.nextId := by
  unfold manifestLeaf
  by_cases hname : (name == MANIFEST_FILE_NAME) = true
  · rw [if_pos hname]
    unfold ExtAddPath
    cases hf : st.registry.find? (fun r => r.2 == (pre ++ [name])) with
    | some r =>
      simp only [pushScanResult]
      exact ⟨h1, h2⟩
    | none =>
      simp only [pushScanResult]
      constructor
      · rw [List.pairwise_append]
        exact ⟨h1, List.pairwise_singleton _ _,
          fun a ha b hb => by simp at hb; rw [hb]; exact h2 a ha⟩
      · intro i hi
        simp only [List.mem_append, List.mem_singleton] at hi
        cases hi with
        | inl h3 => have := h2 i h3; omega
        | inr h3 => omega
  · rw [if_neg hname]
    cases tl <;> exact ⟨h1, h2⟩

theorem scan_added_inv_aux : ∀ n : Nat,
    (∀ t, FsNode.size t ≤ n → ∀ pre d tl st,
      st.added.Pairwise (· < ·) → (∀ i ∈ st.added, i < st.nextId) →
      (processEntry pre t d tl st).1.added.Pairwise (· < ·) ∧
        ∀ i ∈ (processEntry pre t d tl st).1.added,
          i < (processEntry pre t d tl st).1.nextId) ∧
    (∀ ts, sizeFsList ts ≤ n → ∀ pre d st,
      st.added.Pairwise (· < ·) → (∀ i ∈ st.added, i < st.nextId) →
      (processChildren pre ts d st).1.added.Pairwise (· < ·) ∧
        ∀ i ∈ (processChildren pre ts d st).1.added,
          i < (processChildren pre ts d st).1.nextId) := by
  intro n
  induction n with
  | zero =>
    constructor
    · intro t hsz
      exact absurd hsz (by have := size_pos_fs t; omega)
    · intro ts hsz pre d st hp hb
      cases ts with
      | nil => exact ⟨hp, hb⟩
      | cons c cs =>
        rw [sizeFsList_cons] at hsz
        exact absurd hsz (by have := size_pos_fs c; omega)
  | succ n ih =>
    obtain ⟨ihE, ihC⟩ := ih
    constructor
    · intro t hsz pre d tl st hp hb
      cases t with
      | file name => exact manifestLeaf_added_inv pre name tl st hp hb
      | dir name children =>
        cases d with
        | zero => exact manifestLeaf_added_inv pre name tl st hp hb
        | succ d' =>
          have hstep : processEntry pre (.dir name children) (d' + 1) tl st =
              processChildren (pre ++ [name]) children d' st := by
            rw [processEntry.eq_def]
            simp
          rw [hstep]
          have hszc : sizeFsList children ≤ n := by
            rw [size_dir] at hsz
            omega
          exact ihC children hszc (pre ++ [name]) d' st hp hb
    · intro ts hsz pre d st hp hb
      cases ts with
      | nil => exact ⟨hp, hb⟩
      | cons c cs =>
        rw [sizeFsList_cons] at hsz
        have hszc : FsNode.size c ≤ n := by have := size_pos_fs c; omega
        have hszcs : sizeFsList cs ≤ n := by have := size_pos_fs c; omega
        cases hhid : startsWithDot c.name with
        | true =>
          have hstep : processChildren pre (c :: cs) d st =
              processChildren pre cs d st := by
            rw [processChildren.eq_def]
            simp [hhid]
          rw [hstep]
          exact ihC cs hszcs pre d st hp hb
        | false =>
          rcases hpe : processEntry pre c d false st with ⟨st1, e1⟩
          have hstep : (processChildren pre (c :: cs) d st).1 =
              (processChildren pre cs d st1).1 := by
            rw [processChildren.eq_def]
            simp [hhid, hpe]
          rw [hstep]
          have hE := ihE c hszc pre d false st hp hb
          rw [hpe] at hE
          exact ihC cs hszcs pre d st1 hE.1 hE.2

theorem processRoots_added_inv (picks : List (List String × FsNode)) (d : Nat) :
    ∀ st, st.added.Pairwise (· < ·) → (∀ i ∈ st.added, i < st.nextId) →
      (processRoots picks d st).1.added.Pairwise (· < ·) := by
  induction picks with
  | nil => intro st hp _; exact hp
  | cons pick rest ih =>
    intro st hp hb
    obtain ⟨pre, t⟩ := pick
    rcases hpe : processEntry pre t d true st with ⟨st1, e1⟩
    have hstep : (processRoots ((pre, t) :: rest) d st).1 =
        (processRoots rest d st1).1 := by
      rw [processRoots.eq_def]
      simp [hpe]
    rw [hstep]
    have hE := (scan_added_inv_aux (FsNode.size t)).1 t le_rfl pre d true st hp hb
    rw [hpe] at hE
    exact ih st1 hE.1 hE.2

/-! ## Scanner claim theorems -/

theorem singleRoot_state (pre : List String) (t : FsNode) (d : Nat)
    (reg : List (Nat × List String)) (nid : Nat) :
    (createMultipleNewLocalFileExtensions (some [(pre, t)]) d reg nid).1 =
      (processEntry pre t d true ⟨reg, nid, [], []⟩).1 := by
  rcases hpe : processEntry pre t d true ⟨reg, nid, [], []⟩ with ⟨st1, e1⟩
  show (processRoots [(pre, t)] d ⟨reg, nid, [], []⟩).1 = (st1, e1).1
  rw [processRoots.eq_def]
  simp only [hpe]
  rw [processRoots.eq_def]

/-- C1 counterexample: a directory picked as a top-level root, scanned with
depth 0 and not named like the manifest, makes the handler throw the
`ManifestNamingError` — the claim says this case returns without an error. -/
theorem depth_zero_directory_root_counterexample :
    processEntry [] (.dir "plugins" []) 0 true ⟨[], 0, [], []⟩ =
      (⟨[], 0, [], []⟩, some .manifestNaming) := by
  decide

/-- C1 (amended): for every directory picked as a top-level root, a scan with
depth 0 whose root name is not the manifest filename registers nothing for
that root and raises `ManifestNamingError`: the top-level naming error applies
to any top-level entry that is neither a descended-into directory nor named
exactly like the manifest — directories at depth 0 included, not only files. -/
theorem depth_zero_directory_root_raises (pre : List String) (name : String)
    (children : List FsNode) (st : ScanState)
    (h : name ≠ MANIFEST_FILE_NAME) :
    processEntry pre (.dir name children) 0 true st =
      (st, some .manifestNaming) := by
  have hstep : processEntry pre (.dir name children) 0 true st =
      manifestLeaf pre name true st := rfl
  rw [hstep]
  unfold manifestLeaf
  rw [if_neg (by simp [h]), if_pos rfl]

/-- Witness for the amended C1: a depth-0 directory root that even contains a
manifest one level down still raises the naming error and registers nothing. -/
theorem depth_zero_directory_root_raises_witness :
    processEntry [] (.dir "data" [.file "manifest.json"]) 0 true ⟨[], 0, [], []⟩ =
      (⟨[], 0, [], []⟩, some .manifestNaming) :=
  depth_zero_directory_root_raises [] "data" [.file "manifest.json"]
    ⟨[], 0, [], []⟩ (by decide)

/-- C3 counterexample: when the same manifest path is reachable twice from the
picked roots (here: the identical file picked twice), its id lands in `added`
on the first visit and in `existed` on the second, so the two lists are not
disjoint — contradicting the claim. -/
theorem importExtensions_duplicate_pick_counterexample :
    createMultipleNewLocalFileExtensions
        (some [(["r"], .file "manifest.json"), (["r"], .file "manifest.json")])
        0 [] 0 =
      (⟨[(0, ["r", "manifest.json"])], 1, [0], [0]⟩, none) := by
  decide

/-- C3 (amended): across all roots and depths, `added` never contains a
duplicate id (each id in `added` is freshly minted exactly once); `existed`,
however, receives one entry per re-encounter, so it may contain duplicates and
may share ids with `added` when the same manifest path is reachable more than
once from the picked roots. -/
theorem importExtensions_added_nodup
    (dialogResult : Option (List (List String × FsNode))) (depth : Nat)
    (reg : List (Nat × List String)) (nid : Nat) :
    ((createMultipleNewLocalFileExtensions dialogResult depth reg nid).1).added.Nodup := by
  unfold createMultipleNewLocalFileExtensions
  cases dialogResult with
  | none => simp
  | some picks =>
    have h := processRoots_added_inv picks depth ⟨reg, nid, [], []⟩
      (by simp) (by simp)
    exact h.imp (fun hlt => Nat.ne_of_lt hlt)

/-- C5: for a picked root and initial depth `d`, a file named exactly like the
manifest at relative depth `k` below the root — reached through non-hidden
directory components — is registered by the scan if and only if `k ≤ d`
(provided its path was not already registered before the call). -/
theorem importExtensions_depth_boundary (pre : List String) (t : FsNode)
    (d : Nat) (reg : List (Nat × List String)) (nid : Nat) (p : List String)
    (hm : isManifestFileAt t p = true)
    (hnew : pre ++ FsNode.name t :: p ∉ reg.map (fun r => r.2)) :
    (pre ++ FsNode.name t :: p ∈ registeredPaths
        (createMultipleNewLocalFileExtensions (some [(pre, t)]) d reg nid).1) ↔
      p.length ≤ d := by
  rw [singleRoot_state]
  rw [(scan_mem_aux (FsNode.size t)).1 t le_rfl pre d true ⟨reg, nid, [], []⟩ _]
  have hreg0 : registeredPaths ⟨reg, nid, [], []⟩ = reg.map (fun r => r.2) := rfl
  constructor
  · rintro (h | ⟨r, hr, hq⟩)
    · rw [hreg0] at h
      exact absurd h hnew
    · have hlen := (hits_len_aux (FsNode.size t)).1 t le_rfl d r hr
      have hpr : p = r := by
        have h2 := List.append_cancel_left hq
        simpa using h2
      rw [hpr]
      exact hlen
  · intro hle
    exact Or.inr ⟨p, (hits_complete_aux (FsNode.size t)).1 t le_rfl p d hm hle, rfl⟩

/-- Witness for C5: a manifest at depth 2 under a root scanned with depth 2 is
registered (the boundary is inclusive). -/
theorem importExtensions_depth_boundary_witness :
    ["plugins", "a", "manifest.json"] ∈ registeredPaths
      (createMultipleNewLocalFileExtensions
        (some [([], .dir "plugins" [.dir "a" [.file "manifest.json"]])])
        2 [] 0).1 := by
  have h := importExtensions_depth_boundary []
    (.dir "plugins" [.dir "a" [.file "manifest.json"]]) 2 [] 0
    ["a", "manifest.json"]
    (by
      simp [isManifestFileAt_dir_cons, childHasManifest_cons,
        childHasManifest_nil, isManifestFileAt_file_nil, FsNode.name,
        MANIFEST_FILE_NAME]
      exact ⟨by decide, by decide⟩)
    (by simp)
  exact h.mpr (by decide)

/-- C10: a cancelled (or null) open dialog makes the handler return empty
`added` and `existed` lists, with no error raised and the registry untouched. -/
theorem importExtensions_cancel_dialog (depth : Nat)
    (reg : List (Nat × List String)) (nid : Nat) :
    createMultipleNewLocalFileExtensions none depth reg nid =
      (⟨reg, nid, [], []⟩, none) := rfl

/-! ## Package writer: validation-loop lemmas -/

theorem validateGo_cons_stepOk (f : PendingFile) (fs : List PendingFile)
    (i : Nat) (acc : Option (Json × Nat)) (h : fileStepOk f = true) :
    ∃ acc', validateGo (f :: fs) i acc = validateGo fs (i + 1) acc' := by
  unfold fileStepOk at h
  simp only [Bool.and_eq_true] at h
  obtain ⟨hname, hrest⟩ := h
  by_cases hman : (f.name == MANIFEST_FILE_NAME) = true
  · rw [if_pos hman] at hrest
    cases hcon : f.content with
    | bin =>
      simp only [hcon] at hrest
      exact Bool.noConfusion hrest
    | str s =>
      simp only [hcon] at hrest
      cases hp : parseJson s with
      | none =>
        simp only [hp] at hrest
        exact Bool.noConfusion hrest
      | some j =>
        simp only [hp, Bool.and_eq_true, Bool.not_eq_true'] at hrest
        obtain ⟨hobj, hbuild⟩ := hrest
        refine ⟨some (j, i), ?_⟩
        conv_lhs => rw [validateGo.eq_def]
        simp only [hcon, hp]
        rw [if_neg (by simp [hname]), if_pos hman]
        rw [if_pos hobj, if_neg (by simp [hbuild])]
  · refine ⟨acc, ?_⟩
    conv_lhs => rw [validateGo.eq_def]
    simp only []
    rw [if_neg (by simp [hname]), if_neg hman]

theorem validateGo_first_invalid : ∀ (pre : List PendingFile)
    (bad : PendingFile) (rest : List PendingFile) (i : Nat)
    (acc : Option (Json × Nat)),
    (∀ f ∈ pre, fileStepOk f = true) → nameValid bad.name = false →
    validateGo (pre ++ bad :: rest) i acc = .error (.invalidFile bad.name) := by
  intro pre
  induction pre with
  | nil =>
    intro bad rest i acc _ hbad
    rw [List.nil_append]
    unfold validateGo
    rw [if_pos (by simp [hbad])]
  | cons f pre' ih =>
    intro bad rest i acc hok hbad
    rw [List.cons_append]
    obtain ⟨acc', hstep⟩ := validateGo_cons_stepOk f (pre' ++ bad :: rest) i acc
      (hok f (by simp))
    rw [hstep]
    exact ih bad rest (i + 1) acc' (fun g hg => hok g (by simp [hg])) hbad

theorem validateGo_reserved : ∀ (fs : List PendingFile) (i : Nat)
    (acc : Option (Json × Nat)) (f0 : PendingFile) (s0 : String) (j0 : Json),
    (∀ f ∈ fs, nameValid f.name = true) →
    fs.find? (fun f => f.name == MANIFEST_FILE_NAME) = some f0 →
    f0.content = .str s0 → parseJson s0 = some j0 → jsObjLike j0 = true →
    jsTruthyOpt (jsGet j0 "build") = true →
    validateGo fs i acc = .error .reservedField := by
  intro fs
  induction fs with
  | nil =>
    intro i acc f0 s0 j0 _ hfind
    simp at hfind
  | cons f fs' ih =>
    intro i acc f0 s0 j0 hnames hfind hcon hp hobj hbuild
    unfold validateGo
    rw [if_neg (by simp [hnames f (by simp)])]
    by_cases hman : (f.name == MANIFEST_FILE_NAME) = true
    · rw [if_pos hman]
      rw [List.find?_cons] at hfind
      simp only [hman] at hfind
      have hf0 : f = f0 := by injection hfind
      rw [hf0, hcon]
      simp only [hp]
      rw [if_pos hobj, if_pos hbuild]
    · rw [if_neg hman]
      rw [List.find?_cons] at hfind
      rw [Bool.not_eq_true] at hman
      simp only [hman] at hfind
      exact ih (i + 1) acc f0 s0 j0 (fun g hg => hnames g (by simp [hg]))
        hfind hcon hp hobj hbuild

theorem validateGo_manifest_at : ∀ (fs : List PendingFile) (i : Nat)
    (acc : Option (Json × Nat)) (m : Json) (j : Nat),
    validateGo fs i acc = .ok (some (m, j)) →
    acc = some (m, j) ∨
      ∃ k f, fs.get? k = some f ∧ f.name = MANIFEST_FILE_NAME ∧ j = i + k := by
  intro fs
  induction fs with
  | nil =>
    intro i acc m j h
    unfold validateGo at h
    exact Or.inl (by injection h)
  | cons f fs' ih =>
    intro i acc m j h
    unfold validateGo at h
    by_cases hnv : nameValid f.name = true
    · rw [if_neg (by simp [hnv])] at h
      by_cases hman : (f.name == MANIFEST_FILE_NAME) = true
      · rw [if_pos hman] at h
        cases hcon : f.content with
        | bin =>
          simp only [hcon] at h
          exact Except.noConfusion h
        | str s =>
          simp only [hcon] at h
          cases hp : parseJson s with
          | none =>
            simp only [hp] at h
            exact Except.noConfusion h
          | some jj =>
            simp only [hp] at h
            by_cases hobj : jsObjLike jj = true
            · rw [if_pos hobj] at h
              by_cases hbuild : jsTruthyOpt (jsGet jj "build") = true
              · rw [if_pos hbuild] at h; simp at h
              · rw [if_neg hbuild] at h
                cases ih (i + 1) (some (jj, i)) m j h with
                | inl h2 =>
                  refine Or.inr ⟨0, f, rfl, eq_of_beq hman, ?_⟩
                  injection h2 with h3
                  injection h3 with _ h4
                  omega
                | inr h2 =>
                  obtain ⟨k, g, hget, hgname, hj⟩ := h2
                  exact Or.inr ⟨k + 1, g, by simpa using hget, hgname, by omega⟩
            · rw [if_neg hobj] at h; simp at h
      · rw [if_neg hman] at h
        cases ih (i + 1) acc m j h with
        | inl h2 => exact Or.inl h2
        | inr h2 =>
          obtain ⟨k, g, hget, hgname, hj⟩ := h2
          exact Or.inr ⟨k + 1, g, by simpa using hget, hgname, by omega⟩
    · rw [if_pos (by simp [hnv])] at h
      simp at h

/-! ## Package writer: write-phase lemmas -/

theorem writeLoop_lastDir (sd : String) (failSet : List String) :
    ∀ (files : List PendingFile) (st : WriteState),
      (writeLoop sd failSet files st).lastSavedPluginDir =
        st.lastSavedPluginDir := by
  intro files
  induction files with
  | nil => intro st; rfl
  | cons f fs ih =>
    intro st
    rw [writeLoop.eq_def]
    simp only []
    by_cases hf : failSet.contains (pathJoin sd f.name) = true
    · rw [if_pos hf, ih]
    · rw [if_neg hf, ih]

theorem writeLoop_written_mono (sd : String) (failSet : List String) :
    ∀ (files : List PendingFile) (st : WriteState)
      (x : String × FileContent), x ∈ st.fsFilesWritten →
      x ∈ (writeLoop sd failSet files st).fsFilesWritten := by
  intro files
  induction files with
  | nil => intro st x hx; exact hx
  | cons f fs ih =>
    intro st x hx
    rw [writeLoop.eq_def]
    simp only []
    by_cases hf : failSet.contains (pathJoin sd f.name) = true
    · rw [if_pos hf]
      exact ih _ x hx
    · rw [if_neg hf]
      exact ih _ x (by simp [hx])

theorem writeLoop_mem (sd : String) (failSet : List String) :
    ∀ (files : List PendingFile) (st : WriteState) (f : PendingFile),
      f ∈ files → failSet.contains (pathJoin sd f.name) = false →
      (pathJoin sd f.name, f.content) ∈
        (writeLoop sd failSet files st).fsFilesWritten := by
  intro files
  induction files with
  | nil => intro st f hf; simp at hf
  | cons g fs ih =>
    intro st f hf hfail
    rw [writeLoop.eq_def]
    simp only []
    rw [List.mem_cons] at hf
    cases hf with
    | inl h1 =>
      rw [h1] at hfail
      rw [h1, hfail]
      simp only [Bool.false_eq_true, if_false]
      exact writeLoop_written_mono sd failSet fs _ _ (by simp)
    | inr h1 =>
      by_cases hg : failSet.contains (pathJoin sd g.name) = true
      · rw [if_pos hg]
        exact ih _ f h1 hfail
      · rw [if_neg hg]
        exact ih _ f h1 hfail

theorem setContentAt_mem : ∀ (files : List PendingFile) (idx : Nat)
    (f : PendingFile) (c : FileContent), files.get? idx = some f →
    (⟨f.name, c⟩ : PendingFile) ∈ setContentAt files idx c := by
  intro files
  induction files with
  | nil => intro idx f c h; simp at h
  | cons g fs ih =>
    intro idx f c h
    cases idx with
    | zero =>
      simp only [List.get?_cons_zero] at h
      have hg : g = f := by injection h
      rw [setContentAt, hg]
      simp
    | succ n =>
      simp only [List.get?_cons_succ] at h
      rw [setContentAt]
      exact List.mem_cons_of_mem _ (ih n f c h)

theorem lookup_objAssign (fs : List (String × Json)) (k : String) (v : Json) :
    (objAssign fs k v).lookup k = some v := by
  induction fs with
  | nil => simp [objAssign, List.lookup]
  | cons a fs ih =>
    obtain ⟨k', v'⟩ := a
    by_cases hk : (k' == k) = true
    · rw [objAssign, if_pos hk]
      have hk2 : (k == k') = true := by
        rw [beq_iff_eq] at hk ⊢
        exact hk.symm
      simp [List.lookup, hk2]
    · rw [objAssign, if_neg hk]
      have hk2 : (k == k') = false := by
        rw [Bool.not_eq_true] at hk
        rw [beq_eq_false_iff_ne] at hk ⊢
        exact fun h => hk h.symm
      simp [List.lookup, hk2, ih]

/-! ## Package writer claim theorems -/

/-- C2 counterexample.  First run: a manifest that declares `build` with a
falsy value (the empty string) sails through the `if (manifest.build)`
truthiness check, the package is written to disk and registered — no
`ReservedFieldError`.  Second run: with a truthy `build`, a file whose name
fails validation earlier in the set wins, so the failure is `InvalidFileError`
rather than `ReservedFieldError`. -/
theorem writeNewPackage_reserved_counterexample :
    (writeNewExtensionToDisk [⟨"manifest.json", .str "\x7b\"build\":\"\"\x7d"⟩]
        "p" (some "/home/u/plug") [] ⟨[], 0, [], [], [], none, []⟩).2 =
      .ok 0 ∧
    ((writeNewExtensionToDisk [⟨"manifest.json", .str "\x7b\"build\":\"\"\x7d"⟩]
        "p" (some "/home/u/plug") [] ⟨[], 0, [], [], [], none, []⟩).1).fsFilesWritten.length = 1 ∧
    (writeNewExtensionToDisk
        [⟨"bad name.js", .str "x"⟩, ⟨"manifest.json", .str "\x7b\"build\":\"x\"\x7d"⟩]
        "p" (some "/home/u/plug") [] ⟨[], 0, [], [], [], none, []⟩).2 =
      .err (.invalidFile "bad name.js") := by
  exact ⟨by decide, by decide, by decide⟩

/-- C2 (amended): for every input file set whose file names all pass
validation, if the first manifest-named file's string content parses to a
non-null object-typed JSON value declaring a truthy `build` value, then
`writeNewExtensionToDisk` fails with `ReservedFieldError` with the state
untouched — no file written, no directory created, registry unchanged. -/
theorem writeNewPackage_reserved_field (files : List PendingFile)
    (dirName : String) (saveDialog : Option String) (failSet : List String)
    (st : WriteState) (f0 : PendingFile) (s0 : String) (j0 : Json)
    (hnames : ∀ f ∈ files, nameValid f.name = true)
    (hfind : firstManifestFile files = some f0)
    (hcon : f0.content = .str s0) (hp : parseJson s0 = some j0)
    (hobj : jsObjLike j0 = true)
    (hbuild : jsTruthyOpt (jsGet j0 "build") = true) :
    writeNewExtensionToDisk files dirName saveDialog failSet st =
      (st, .err .reservedField) := by
  have hv : validateFiles files = .error .reservedField :=
    validateGo_reserved files 0 none f0 s0 j0 hnames hfind hcon hp hobj hbuild
  unfold writeNewExtensionToDisk
  rw [hv]

/-- Witness for the amended C2 at a concrete truthy-`build` manifest. -/
theorem writeNewPackage_reserved_field_witness :
    writeNewExtensionToDisk [⟨"manifest.json", .str "\x7b\"build\":\"x\"\x7d"⟩]
        "p" (some "/home/u/plug") [] ⟨[], 0, [], [], [], none, []⟩ =
      (⟨[], 0, [], [], [], none, []⟩, .err .reservedField) :=
  writeNewPackage_reserved_field _ _ _ _ _
    ⟨"manifest.json", .str "\x7b\"build\":\"x\"\x7d"⟩ "\x7b\"build\":\"x\"\x7d"
    (.obj [("build", .str "x")]) (by decide) (by decide) rfl rfl rfl rfl

/-- C4 counterexample: the validation loop is interleaved per file, so when a
malformed manifest precedes the invalidly-named file, the run fails with
`ManifestParseError`, not with `InvalidFileError` naming the offender as the
claim requires. -/
theorem writeNewPackage_name_validation_counterexample :
    writeNewExtensionToDisk
        [⟨"manifest.json", .str "not json"⟩, ⟨"bad name.js", .str "x"⟩]
        "p" (some "/d/p") [] ⟨[], 0, [], [], [], none, []⟩ =
      (⟨[], 0, [], [], [], none, []⟩, .err .manifestParse) := by
  decide

/-- C4 (amended): if some file's name fails the extension allow-list, shape
pattern or sanitization check, and every file preceding it in the set passes
its full per-file validation step (name checks, plus the string/parse/shape/
reserved-field checks for manifest-named files), then `writeNewExtensionToDisk`
fails with `InvalidFileError` naming that file and performs no disk write.
Name validation of all files does not in general precede manifest parsing:
the loop validates names and parses the manifest interleaved, per file. -/
theorem writeNewPackage_invalid_file_name (files : List PendingFile)
    (dirName : String) (saveDialog : Option String) (failSet : List String)
    (st : WriteState) (pre : List PendingFile) (bad : PendingFile)
    (rest : List PendingFile) (hsplit : files = pre ++ bad :: rest)
    (hok : ∀ f ∈ pre, fileStepOk f = true)
    (hbad : nameValid bad.name = false) :
    writeNewExtensionToDisk files dirName saveDialog failSet st =
      (st, .err (.invalidFile bad.name)) := by
  have hv : validateFiles files = .error (.invalidFile bad.name) := by
    rw [hsplit]
    exact validateGo_first_invalid pre bad rest 0 none hok hbad
  unfold writeNewExtensionToDisk
  rw [hv]

/-- Witness for the amended C4: a valid code file followed by an invalidly
named file aborts the whole operation with `InvalidFileError`, untouched
state. -/
theorem writeNewPackage_invalid_file_name_witness :
    writeNewExtensionToDisk
        [⟨"code.js", .str "x"⟩, ⟨"bad name.js", .str "y"⟩]
        "p" (some "/d/p") [] ⟨[], 0, [], [], [], none, []⟩ =
      (⟨[], 0, [], [], [], none, []⟩, .err (.invalidFile "bad name.js")) :=
  writeNewPackage_invalid_file_name _ _ _ _ _
    [⟨"code.js", .str "x"⟩] ⟨"bad name.js", .str "y"⟩ [] rfl
    (by decide) (by decide)

/-- C6: with a valid input file set (validation succeeds and finds a
manifest), cancelling the save-location prompt returns the `undefined`
outcome, not an error, and the state — filesystem, registry,
last-save-directory setting — is exactly the initial one. -/
theorem writeNewPackage_cancel (files : List PendingFile) (dirName : String)
    (failSet : List String) (st : WriteState) (m : Json) (idx : Nat)
    (hval : validateFiles files = .ok (some (m, idx))) :
    writeNewExtensionToDisk files dirName none failSet st = (st, .cancelled) := by
  unfold writeNewExtensionToDisk
  rw [hval]

/-- Witness for C6 at a concrete valid package. -/
theorem writeNewPackage_cancel_witness :
    writeNewExtensionToDisk [⟨"manifest.json", .str "\x7b\x7d"⟩] "p" none []
        ⟨[], 0, [], [], [], none, []⟩ =
      (⟨[], 0, [], [], [], none, []⟩, .cancelled) :=
  writeNewPackage_cancel _ _ _ _ (.obj []) 0 rfl

/-- C9: once validation has succeeded and the save prompt returns a (truthy)
destination, the `lastSavedPluginDir` setting holds the destination's parent
directory in the final state of every run — in particular it has been mutated
even when the operation then fails with `InvalidDirectoryError` (empty leaf
name) or `DestinationExistsError`, because the setting is assigned before
both of those checks. -/
theorem writeNewPackage_lastDir_updated (files : List PendingFile)
    (dirName : String) (s : String) (failSet : List String) (st : WriteState)
    (m : Json) (idx : Nat)
    (hval : validateFiles files = .ok (some (m, idx)))
    (hs : (s == "") = false) :
    ((writeNewExtensionToDisk files dirName (some s) failSet st).1).lastSavedPluginDir =
      some (pathDirname s) := by
  unfold writeNewExtensionToDisk
  simp only [hval]
  rw [if_neg (by simp [hs])]
  split
  · rfl
  · split
    · rfl
    · split <;> simp [writeLoop_lastDir]

/-- Witness for C9: with destination `/`, the leaf name is empty, the run
fails with `InvalidDirectoryError`, and the last-save-directory setting has
nonetheless been updated to the destination's parent. -/
theorem writeNewPackage_lastDir_updated_witness :
    ((writeNewExtensionToDisk [⟨"manifest.json", .str "\x7b\x7d"⟩] "p"
        (some "/") [] ⟨[], 0, [], [], [], none, []⟩).1).lastSavedPluginDir =
      some (pathDirname "/") :=
  writeNewPackage_lastDir_updated _ _ _ _ _ (.obj []) 0 rfl (by decide)

/-- C8: when validation succeeds with an object manifest that lacks a `name`
field and the prompt returns a destination with a non-empty leaf name that
does not already exist, the content written to disk for the manifest file is
the original object with `name` set to the destination's leaf name,
serialized with `JSON.stringify(·, undefined, 2)`; the updated object's
`name` reads back as the leaf name, and (for well-formed manifests) parsing
the written serialization recovers exactly the updated object — so a reload
of the written manifest has `name` equal to the destination's leaf name. -/
theorem writeNewPackage_name_autofill (files : List PendingFile)
    (dirName : String) (s : String) (failSet : List String) (st : WriteState)
    (flds : List (String × Json)) (idx : Nat)
    (hval : validateFiles files = .ok (some (.obj flds, idx)))
    (hnm : jsGet (.obj flds) "name" = none)
    (hs : (s == "") = false)
    (hb : (pathBasename s == "") = false)
    (hex : st.fsExisting.contains s = false)
    (hfail : failSet.contains (pathJoin s MANIFEST_FILE_NAME) = false) :
    (pathJoin s MANIFEST_FILE_NAME,
        .str (ppJsonStr (jsSet (.obj flds) "name" (.str (pathBasename s))))) ∈
      ((writeNewExtensionToDisk files dirName (some s) failSet st).1).fsFilesWritten ∧
    jsGet (jsSet (.obj flds) "name" (.str (pathBasename s))) "name" =
      some (.str (pathBasename s)) ∧
    (wfJson (jsSet (.obj flds) "name" (.str (pathBasename s))) = true →
      parseJson (ppJsonStr (jsSet (.obj flds) "name" (.str (pathBasename s)))) =
        some (jsSet (.obj flds) "name" (.str (pathBasename s)))) := by
  refine ⟨?_, lookup_objAssign flds "name" _, fun hwf => parseJson_ppJsonStr _ hwf⟩
  have hidx : ∃ f, files.get? idx = some f ∧ f.name = MANIFEST_FILE_NAME := by
    cases validateGo_manifest_at files 0 none (.obj flds) idx hval with
    | inl h => exact absurd h (by simp)
    | inr h =>
      obtain ⟨k, f, hget, hn, hk⟩ := h
      refine ⟨f, ?_, hn⟩
      rw [show idx = k by omega]
      exact hget
  obtain ⟨f, hget, hfname⟩ := hidx
  unfold writeNewExtensionToDisk
  simp only [hval]
  rw [if_neg (by simp [hs])]
  rw [if_neg (by simp [hb])]
  simp only [hnm]
  simp only [show jsTruthyOpt none = false from rfl, Bool.not_false]
  simp only [eq_self_iff_true, if_true]
  rw [if_neg (by simpa using hex)]
  have hmem : (⟨MANIFEST_FILE_NAME,
      .str (ppJsonStr (jsSet (.obj flds) "name" (.str (pathBasename s))))⟩ :
        PendingFile) ∈
      setContentAt files idx
        (.str (ppJsonStr (jsSet (.obj flds) "name" (.str (pathBasename s))))) := by
    have := setContentAt_mem files idx f
      (.str (ppJsonStr (jsSet (.obj flds) "name" (.str (pathBasename s))))) hget
    rw [hfname] at this
    exact this
  split
  · exact writeLoop_mem s failSet _ _ _ hmem hfail
  · exact writeLoop_mem s failSet _ _ _ hmem hfail

/-- Witness for C8: a one-file package whose manifest is the empty object,
saved at `/home/u/myplug`: the manifest written to disk is the pretty-printed
`\x7b"name": "myplug"\x7d`, whose `name` field reads back and round-trips as
the destination's leaf name. -/
theorem writeNewPackage_name_autofill_witness :
    (pathJoin "/home/u/myplug" MANIFEST_FILE_NAME,
        FileContent.str
          (ppJsonStr (jsSet (.obj []) "name" (.str (pathBasename "/home/u/myplug"))))) ∈
      ((writeNewExtensionToDisk [⟨"manifest.json", .str "\x7b\x7d"⟩] "p"
          (some "/home/u/myplug") [] ⟨[], 0, [], [], [], none, []⟩).1).fsFilesWritten ∧
    jsGet (jsSet (.obj []) "name" (.str (pathBasename "/home/u/myplug"))) "name" =
      some (.str (pathBasename "/home/u/myplug")) ∧
    (wfJson (jsSet (.obj []) "name" (.str (pathBasename "/home/u/myplug"))) = true →
      parseJson (ppJsonStr (jsSet (.obj []) "name" (.str (pathBasename "/home/u/myplug")))) =
        some (jsSet (.obj []) "name" (.str (pathBasename "/home/u/myplug")))) :=
  writeNewPackage_name_autofill [⟨"manifest.json", .str "\x7b\x7d"⟩] "p"
    "/home/u/myplug" [] ⟨[], 0, [], [], [], none, []⟩ [] 0
    (by rfl) rfl (by decide) (by decide) rfl rfl

/-- C7: divergence between the failure dialog's text and the loop's actual
behaviour. Exporting two files to `/out` where writing `a.png` fails shows a
dialog whose detail says `"a.png" could not be saved. Remaining files will
not be saved.` — yet the loop continues and `b.png` IS written (menu.ts
340-354: the `catch` only shows the dialog, the `for` loop proceeds). -/
theorem writeFiles_failure_dialog_continues :
    writeFilesHandler [⟨"a.png"⟩, ⟨"b.png"⟩] none (some ["/out"]) ["/out/a.png"]
        ⟨[], [], none, none, []⟩ =
      ⟨["/out/b.png"], ["/out", "/out"], some "/out", none,
        [exportFailDetail "a.png"]⟩ ∧
    exportFailDetail "a.png" =
      "\"a.png\" could not be saved. Remaining files will not be saved." :=
  ⟨by decide, rfl⟩
